import Mathlib

/-!
Verification of the polygon-coverage query engine of `day-9.py`:
edge extraction, interval merging, coordinate compression, scanline
parity classification, 2-D prefix sums and the rectangle-coverage
candidate search.  Coordinates are modelled as `Int`, Python lists as
`List`, Python dicts keyed by coordinates as total functions returning
the empty list on absent keys (matching `dict.get` + the `None` check),
and fallible code as `Except String`.
-/

namespace Day9

/-- `rect_area`: inclusive area of the axis-aligned rectangle between two tiles. -/
def rect_area (cord1 cord2 : Int × Int) : Int :=
  (|cord1.1 - cord2.1| + 1) * (|cord1.2 - cord2.2| + 1)

/-- Lexicographic comparison of integer pairs; models Python's tuple
ordering used by `sorted(intervals)`. -/
def pairLE (a b : Int × Int) : Prop :=
  a.1 < b.1 ∨ (a.1 = b.1 ∧ a.2 ≤ b.2)

instance : DecidableRel pairLE := fun a b =>
  inferInstanceAs (Decidable (a.1 < b.1 ∨ (a.1 = b.1 ∧ a.2 ≤ b.2)))

instance : IsTotal (Int × Int) pairLE where
  total a b := by
    rcases lt_trichotomy a.1 b.1 with h | h | h
    · exact Or.inl (Or.inl h)
    · rcases le_total a.2 b.2 with h2 | h2
      · exact Or.inl (Or.inr ⟨h, h2⟩)
      · exact Or.inr (Or.inr ⟨h.symm, h2⟩)
    · exact Or.inr (Or.inl h)

instance : IsTrans (Int × Int) pairLE where
  trans a b c hab hbc := by
    rcases hab with h1 | ⟨e1, l1⟩
    · rcases hbc with h2 | ⟨e2, _⟩
      · exact Or.inl (h1.trans h2)
      · exact Or.inl (e2 ▸ h1)
    · rcases hbc with h2 | ⟨e2, l2⟩
      · exact Or.inl (e1 ▸ h2)
      · exact Or.inr ⟨e1.trans e2, l1.trans l2⟩

/-- The merging loop of `merge_intervals`: `cur` is the mutable last element
of the accumulator (`merged[-1]` in the source), the remaining sorted
intervals are processed one at a time. -/
def merge_scan : (Int × Int) → List (Int × Int) → List (Int × Int)
  | cur, [] => [cur]
  | cur, (s, e) :: rest =>
    if s ≤ cur.2 + 1 then merge_scan (cur.1, max cur.2 e) rest
    else cur :: merge_scan (s, e) rest

/-- `merge_intervals`: sort the inclusive intervals lexicographically, then
merge any interval that starts at or before the previous end plus one. -/
def merge_intervals (intervals : List (Int × Int)) : List (Int × Int) :=
  match List.insertionSort pairLE intervals with
  | [] => []
  | h :: t => merge_scan h t

/-- The `while lo <= hi` binary-search loop of `interval_contains`,
with explicit fuel (the loop runs at most `merged.length` times since
`hi - lo` shrinks every iteration; the wrapper supplies enough fuel). -/
def interval_contains_go (merged : List (Int × Int)) (value : Int) :
    Nat → Int → Int → Bool
  | 0, _, _ => false
  | fuel + 1, lo, hi =>
    if lo ≤ hi then
      let mid := (lo + hi) / 2
      let se := merged.getD mid.toNat (0, 0)
      if value < se.1 then interval_contains_go merged value fuel lo (mid - 1)
      else if se.2 < value then interval_contains_go merged value fuel (mid + 1) hi
      else true
    else false

/-- `interval_contains`: binary search for `value` in a merged sorted
interval list. -/
def interval_contains (merged : List (Int × Int)) (value : Int) : Bool :=
  interval_contains_go merged value (merged.length + 1) 0 ((merged.length : Int) - 1)

/-- The loop body of `build_edges`, one consecutive vertex pair at a time
(the pairing including the wrap-around last→first is built by `build_edges`). -/
def build_edges_pairs :
    List ((Int × Int) × (Int × Int)) →
      Except String (List (Int × Int × Int) × List (Int × Int × Int))
  | [] => Except.ok ([], [])
  | ((x1, y1), (x2, y2)) :: rest =>
    if x1 = x2 then
      match build_edges_pairs rest with
      | Except.ok (vs, hs) => Except.ok ((x1, min y1 y2, max y1 y2) :: vs, hs)
      | Except.error msg => Except.error msg
    else if y1 = y2 then
      match build_edges_pairs rest with
      | Except.ok (vs, hs) => Except.ok (vs, (y1, min x1 x2, max x1 x2) :: hs)
      | Except.error msg => Except.error msg
    else Except.error "Non-orthogonal segment in input"

/-- `build_edges`: convert consecutive points (including last→first) into
axis-aligned vertical `(x, y_min, y_max)` and horizontal `(y, x_min, x_max)`
edges; a pair sharing neither coordinate is a fatal error. -/
def build_edges (coords : List (Int × Int)) :
    Except String (List (Int × Int × Int) × List (Int × Int × Int)) :=
  build_edges_pairs (coords.zip (coords.rotate 1))

/-- `get_bounding_box`: `(min_x, max_x, min_y, max_y)` over all coordinates;
Python's `min`/`max` raise on an empty sequence. -/
def get_bounding_box : List (Int × Int) → Except String (Int × Int × Int × Int)
  | [] => Except.error "min() arg is an empty sequence"
  | c :: cs =>
    Except.ok
      ((cs.map Prod.fst).foldl min c.1,
        (cs.map Prod.fst).foldl max c.1,
        (cs.map Prod.snd).foldl min c.2,
        (cs.map Prod.snd).foldl max c.2)

/-- `build_edge_interval_maps`, vertical half: the dict maps each `x` to the
merged inclusive `y`-intervals of the vertical edges at `x`; an absent key
behaves as the empty interval list (`dict.get` returning `None`). -/
def vertical_intervals_by_x (vertical_edges : List (Int × Int × Int)) :
    Int → List (Int × Int) :=
  fun x =>
    merge_intervals ((vertical_edges.filter (fun e => e.1 = x)).map (fun e => (e.2.1, e.2.2)))

/-- `build_edge_interval_maps`, horizontal half. -/
def horizontal_intervals_by_y (horizontal_edges : List (Int × Int × Int)) :
    Int → List (Int × Int) :=
  fun y =>
    merge_intervals ((horizontal_edges.filter (fun e => e.1 = y)).map (fun e => (e.2.1, e.2.2)))

/-- `tile_is_on_boundary`: the tile `(x, y)` lies on the polygon boundary,
per the merged interval maps. -/
def tile_is_on_boundary (x y : Int) (vIntervals hIntervals : Int → List (Int × Int)) : Bool :=
  interval_contains (hIntervals y) x || interval_contains (vIntervals x) y

/-- One axis of `build_compressed_edges`: the sorted deduplicated list of the
two sentinels `lo` and `hi + 1` together with every coordinate value ±1,
clipped to `[lo, hi + 1]` (Python's `sorted(set(...))`). -/
def compress_axis (vals : List Int) (lo hi : Int) : List Int :=
  List.insertionSort (· ≤ ·)
    ((lo :: (hi + 1) ::
        vals.flatMap (fun v => [v - 1, v, v + 1].filter (fun c => lo ≤ c ∧ c ≤ hi + 1))).dedup)

/-- `build_compressed_edges`: compressed x/y coordinate arrays.  The
coordinate→index dicts of the source are modelled by `List.indexOf` into
these sorted arrays. -/
def build_compressed_edges (coords : List (Int × Int)) (min_x max_x min_y max_y : Int) :
    List Int × List Int :=
  (compress_axis (coords.map Prod.fst) min_x max_x,
    compress_axis (coords.map Prod.snd) min_y max_y)

/-- `build_crossing_x_values_for_row`: sorted x values where a horizontal ray
at height `y` crosses a vertical edge, using the half-open span `[y0, y1)`. -/
def build_crossing_x_values_for_row (y : Int) (vertical_edges : List (Int × Int × Int)) :
    List Int :=
  List.insertionSort (· ≤ ·)
    ((vertical_edges.filter
        (fun e => ¬ e.2.1 = e.2.2 ∧ e.2.1 ≤ y ∧ y < e.2.2)).map (fun e => e.1))

/-- Models Python's `bisect.bisect_left` on a sorted integer list: the
insertion point equals the number of elements smaller than the probe. -/
def bisect_left (sorted_values : List Int) (x : Int) : Nat :=
  sorted_values.countP (fun c => c < x)

/-- The per-cell classification of `build_prefix_sum_from_scanlines`: a cell
is allowed when its representative is on the boundary, or else by the
even/odd rule on crossings strictly left of it. -/
def inside_or_boundary (vertical_edges : List (Int × Int × Int))
    (vIntervals hIntervals : Int → List (Int × Int)) (x y : Int) : Bool :=
  tile_is_on_boundary x y vIntervals hIntervals ||
    decide (bisect_left (build_crossing_x_values_for_row y vertical_edges) x % 2 = 1)

/-- Weight of compressed column `c` in the row with representative `y` and
height `height`: cell width times height if allowed, else 0. -/
def cell_weight_at (x_edges : List Int) (vertical_edges : List (Int × Int × Int))
    (vIntervals hIntervals : Int → List (Int × Int)) (y height : Int) (c : Nat) : Int :=
  if inside_or_boundary vertical_edges vIntervals hIntervals (x_edges.getD c 0) y then
    (x_edges.getD (c + 1) 0 - x_edges.getD c 0) * height
  else 0

/-- The weights of one compressed row, columns in order. -/
def row_weights (x_edges : List Int) (vertical_edges : List (Int × Int × Int))
    (vIntervals hIntervals : Int → List (Int × Int)) (y height : Int) : List Int :=
  (List.range (x_edges.length - 1)).map
    (cell_weight_at x_edges vertical_edges vIntervals hIntervals y height)

/-- The inner column loop of `build_prefix_sum_from_scanlines`: walking the
previous prefix row (shifted by one) and the row weights while accumulating
`running_row_sum`. -/
def scan_add : List Int → List Int → Int → List Int
  | _, [], _ => []
  | prev, w :: ws, run => (prev.headD 0 + (run + w)) :: scan_add prev.tail ws (run + w)

/-- One output row of the prefix grid: leading 0, then
`prev[c+1] + running_row_sum` per column. -/
def build_next_row (prev : List Int) (ws : List Int) : List Int :=
  0 :: scan_add (prev.drop 1) ws 0

/-- The outer row loop of `build_prefix_sum_from_scanlines`; each element of
`y_pairs` is a consecutive pair `(y_edges[r], y_edges[r+1])`. -/
def build_prefix_rows (x_edges : List Int) (vertical_edges : List (Int × Int × Int))
    (vIntervals hIntervals : Int → List (Int × Int)) :
    List Int → List (Int × Int) → List (List Int)
  | _, [] => []
  | prev, (y0, y1) :: rest =>
    let row := build_next_row prev
      (row_weights x_edges vertical_edges vIntervals hIntervals y0 (y1 - y0))
    row :: build_prefix_rows x_edges vertical_edges vIntervals hIntervals row rest

/-- `build_prefix_sum_from_scanlines`: the `(row_count+1) × (column_count+1)`
prefix grid of allowed-tile counts over the compressed cells. -/
def build_prefix_sum_from_scanlines (x_edges y_edges : List Int)
    (vertical_edges : List (Int × Int × Int))
    (vIntervals hIntervals : Int → List (Int × Int)) : List (List Int) :=
  let zero_row : List Int := List.replicate (x_edges.length - 1 + 1) 0
  zero_row ::
    build_prefix_rows x_edges vertical_edges vIntervals hIntervals zero_row
      (y_edges.zip y_edges.tail)

/-- `build_allowed_tiles_prefix_sum`: bounding box, edges, interval maps,
compression, then the prefix grid.  Returns the grid together with the
compressed coordinate arrays (whose `indexOf` is the coordinate→index map). -/
def build_allowed_tiles_prefix_sum (coords : List (Int × Int)) :
    Except String (List (List Int) × List Int × List Int) :=
  match get_bounding_box coords with
  | Except.error msg => Except.error msg
  | Except.ok (min_x, max_x, min_y, max_y) =>
    match build_edges coords with
    | Except.error msg => Except.error msg
    | Except.ok (vertical_edges, horizontal_edges) =>
      let vIntervals := vertical_intervals_by_x vertical_edges
      let hIntervals := horizontal_intervals_by_y horizontal_edges
      let xy := build_compressed_edges coords min_x max_x min_y max_y
      Except.ok
        (build_prefix_sum_from_scanlines xy.1 xy.2 vertical_edges vIntervals hIntervals,
          xy.1, xy.2)

/-- Read entry `(r, c)` of the prefix grid. -/
def grid_entry (g : List (List Int)) (r c : Nat) : Int :=
  (g.getD r []).getD c 0

/-- `count_allowed_tiles_in_rectangle`: allowed tiles in the inclusive
rectangle, by the prefix-sum identity at the compressed indices of the four
boundary coordinates. -/
def count_allowed_tiles_in_rectangle (prefix_sum : List (List Int))
    (x_edges y_edges : List Int) (min_x min_y max_x max_y : Int) : Int :=
  let left := List.indexOf min_x x_edges
  let right := List.indexOf (max_x + 1) x_edges
  let bottom := List.indexOf min_y y_edges
  let top := List.indexOf (max_y + 1) y_edges
  grid_entry prefix_sum top right - grid_entry prefix_sum bottom right -
      grid_entry prefix_sum top left +
    grid_entry prefix_sum bottom left

/-- The i<j double loop of `solve_part2`: each unordered pair of distinct
input positions appears exactly once. -/
def candidate_pairs : List (Int × Int) → List ((Int × Int) × (Int × Int))
  | [] => []
  | c :: rest => rest.map (fun d => (c, d)) ++ candidate_pairs rest

/-- The body of the candidate loop of `solve_part2`: skip the query when the
raw area cannot beat the running best, otherwise accept when fully covered. -/
def part2_step (query : Int → Int → Int → Int → Int) (best : Int)
    (p : (Int × Int) × (Int × Int)) : Int :=
  let min_x := if p.1.1 ≤ p.2.1 then p.1.1 else p.2.1
  let max_x := if p.1.1 ≤ p.2.1 then p.2.1 else p.1.1
  let min_y := if p.1.2 ≤ p.2.2 then p.1.2 else p.2.2
  let max_y := if p.1.2 ≤ p.2.2 then p.2.2 else p.1.2
  let area := (max_x - min_x + 1) * (max_y - min_y + 1)
  if area ≤ best then best
  else if query min_x min_y max_x max_y = area then area
  else best

/-- `solve_part2`: build the structure once, then maximise over candidate
corner pairs. -/
def solve_part2 (coords : List (Int × Int)) : Except String Int :=
  match build_allowed_tiles_prefix_sum coords with
  | Except.error msg => Except.error msg
  | Except.ok (prefix_sum, x_edges, y_edges) =>
    Except.ok
      ((candidate_pairs coords).foldl
        (part2_step (count_allowed_tiles_in_rectangle prefix_sum x_edges y_edges)) 0)

/-- Loop body of the unpruned variant of the candidate search: the coverage
query runs for every pair and the maximum is tracked directly. -/
def part2_step_unpruned (query : Int → Int → Int → Int → Int) (best : Int)
    (p : (Int × Int) × (Int × Int)) : Int :=
  let min_x := if p.1.1 ≤ p.2.1 then p.1.1 else p.2.1
  let max_x := if p.1.1 ≤ p.2.1 then p.2.1 else p.1.1
  let min_y := if p.1.2 ≤ p.2.2 then p.1.2 else p.2.2
  let max_y := if p.1.2 ≤ p.2.2 then p.2.2 else p.1.2
  let area := (max_x - min_x + 1) * (max_y - min_y + 1)
  if query min_x min_y max_x max_y = area then max best area
  else best

/-- Unpruned variant of `solve_part2`: identical except that no coverage
check is ever skipped. -/
def solve_part2_unpruned (coords : List (Int × Int)) : Except String Int :=
  match build_allowed_tiles_prefix_sum coords with
  | Except.error msg => Except.error msg
  | Except.ok (prefix_sum, x_edges, y_edges) =>
    Except.ok
      ((candidate_pairs coords).foldl
        (part2_step_unpruned (count_allowed_tiles_in_rectangle prefix_sum x_edges y_edges)) 0)

/-- Specification-side classifier: the tile lies on some polygon edge. -/
def brute_on_boundary (vertical_edges horizontal_edges : List (Int × Int × Int))
    (x y : Int) : Bool :=
  horizontal_edges.any (fun e => e.1 = y ∧ e.2.1 ≤ x ∧ x ≤ e.2.2) ||
    vertical_edges.any (fun e => e.1 = x ∧ e.2.1 ≤ y ∧ y ≤ e.2.2)

/-- Specification-side crossing count: vertical edges whose half-open span
`[y0, y1)` contains `y` and which lie strictly left of `x`. -/
def crossings_left (vertical_edges : List (Int × Int × Int)) (x y : Int) : Nat :=
  vertical_edges.countP (fun e => e.2.1 ≤ y ∧ y < e.2.2 ∧ e.1 < x)

/-- Specification-side per-tile classifier: on the boundary, or strictly
inside by the even/odd ray-crossing rule. -/
def brute_allowed (vertical_edges horizontal_edges : List (Int × Int × Int))
    (x y : Int) : Bool :=
  brute_on_boundary vertical_edges horizontal_edges x y ||
    decide (crossings_left vertical_edges x y % 2 = 1)

/-- Specification-side brute-force per-tile scan of an inclusive rectangle. -/
def brute_count (vertical_edges horizontal_edges : List (Int × Int × Int))
    (min_x min_y max_x max_y : Int) : Int :=
  ∑ x ∈ Finset.Icc min_x max_x, ∑ y ∈ Finset.Icc min_y max_y,
    (if brute_allowed vertical_edges horizontal_edges x y then (1 : Int) else 0)

/-- Specification-side predicate: the whole rectangle spanned by `p` and `q`
consists of allowed tiles. -/
def rect_fully_allowed (vertical_edges horizontal_edges : List (Int × Int × Int))
    (p q : Int × Int) : Bool :=
  decide (∀ x ∈ Finset.Icc (min p.1 q.1) (max p.1 q.1),
    ∀ y ∈ Finset.Icc (min p.2 q.2) (max p.2 q.2),
      brute_allowed vertical_edges horizontal_edges x y = true)

/-- Specification-side answer: maximum inclusive rectangle area over the
candidate pairs whose rectangle is entirely allowed, 0 when none is. -/
def max_covered_area (vertical_edges horizontal_edges : List (Int × Int × Int))
    (pairs : List ((Int × Int) × (Int × Int))) : Int :=
  pairs.foldl
    (fun best p =>
      if rect_fully_allowed vertical_edges horizontal_edges p.1 p.2 then
        max best (rect_area p.1 p.2)
      else best)
    0

/-- The set of integers covered by a list of inclusive intervals. -/
def covers (l : List (Int × Int)) (v : Int) : Prop :=
  ∃ p ∈ l, p.1 ≤ v ∧ v ≤ p.2

/-- Starts are pairwise nondecreasing. -/
def SortedStarts (l : List (Int × Int)) : Prop :=
  List.Pairwise (fun a b : Int × Int => a.1 ≤ b.1) l

end Day9

namespace Day9

theorem covers_nil (v : Int) : ¬ covers [] v := by
  rintro ⟨p, hp, -⟩
  exact absurd hp (List.not_mem_nil p)

theorem covers_cons {p : Int × Int} {l : List (Int × Int)} {v : Int} :
    covers (p :: l) v ↔ (p.1 ≤ v ∧ v ≤ p.2) ∨ covers l v := by
  constructor
  · rintro ⟨q, hq, h1, h2⟩
    rcases List.mem_cons.mp hq with rfl | hq
    · exact Or.inl ⟨h1, h2⟩
    · exact Or.inr ⟨q, hq, h1, h2⟩
  · rintro (⟨h1, h2⟩ | ⟨q, hq, h1, h2⟩)
    · exact ⟨p, List.mem_cons_self p l, h1, h2⟩
    · exact ⟨q, List.mem_cons_of_mem p hq, h1, h2⟩

theorem covers_of_perm {l l' : List (Int × Int)} (h : l.Perm l') {v : Int} :
    covers l v ↔ covers l' v := by
  unfold covers
  constructor <;> rintro ⟨p, hp, hc⟩
  · exact ⟨p, h.mem_iff.mp hp, hc⟩
  · exact ⟨p, h.mem_iff.mpr hp, hc⟩

/-- Two members of a pairwise list are equal or related one way. -/
theorem pairwise_mem_rel {α : Type} {R : α → α → Prop} {l : List α}
    (h : List.Pairwise R l) {a b : α} (ha : a ∈ l) (hb : b ∈ l) :
    a = b ∨ R a b ∨ R b a := by
  induction l with
  | nil => exact absurd ha (List.not_mem_nil a)
  | cons c t ih =>
    rcases List.pairwise_cons.mp h with ⟨hc, ht⟩
    rcases List.mem_cons.mp ha with rfl | ha' <;> rcases List.mem_cons.mp hb with rfl | hb'
    · exact Or.inl rfl
    · exact Or.inr (Or.inl (hc b hb'))
    · exact Or.inr (Or.inr (hc a ha'))
    · exact ih ht ha' hb'

theorem merge_scan_start_le {rest : List (Int × Int)} :
    ∀ {cur : Int × Int}, SortedStarts (cur :: rest) →
      ∀ q ∈ merge_scan cur rest, cur.1 ≤ q.1 := by
  induction rest with
  | nil =>
    intro cur _ q hq
    rcases List.mem_singleton.mp hq with rfl
    exact le_refl _
  | cons p rest ih =>
    intro cur hs q hq
    obtain ⟨s, e⟩ := p
    rcases List.pairwise_cons.mp hs with ⟨hcur, hrest⟩
    rcases List.pairwise_cons.mp hrest with ⟨hse, hrest'⟩
    rw [merge_scan] at hq
    by_cases hm : s ≤ cur.2 + 1
    · rw [if_pos hm] at hq
      have hs' : SortedStarts ((cur.1, max cur.2 e) :: rest) := by
        refine List.pairwise_cons.mpr ⟨?_, hrest'⟩
        intro q' hq'
        exact hcur q' (List.mem_cons_of_mem _ hq')
      exact ih hs' q hq
    · rw [if_neg hm] at hq
      rcases List.mem_cons.mp hq with rfl | hq'
      · exact le_refl _
      · have hs' : SortedStarts ((s, e) :: rest) := List.pairwise_cons.mpr ⟨hse, hrest'⟩
        exact le_trans (hcur (s, e) (List.mem_cons_self _ _)) (ih hs' q hq')

theorem merge_scan_gap {rest : List (Int × Int)} :
    ∀ {cur : Int × Int}, SortedStarts (cur :: rest) →
      List.Pairwise (fun a b : Int × Int => a.2 + 2 ≤ b.1) (merge_scan cur rest) := by
  induction rest with
  | nil => intro cur _; simp [merge_scan]
  | cons p rest ih =>
    intro cur hs
    obtain ⟨s, e⟩ := p
    rcases List.pairwise_cons.mp hs with ⟨hcur, hrest⟩
    rcases List.pairwise_cons.mp hrest with ⟨hse, hrest'⟩
    rw [merge_scan]
    by_cases hm : s ≤ cur.2 + 1
    · rw [if_pos hm]
      have hs' : SortedStarts ((cur.1, max cur.2 e) :: rest) := by
        refine List.pairwise_cons.mpr ⟨?_, hrest'⟩
        intro q' hq'
        exact hcur q' (List.mem_cons_of_mem _ hq')
      exact ih hs'
    · rw [if_neg hm]
      have hs' : SortedStarts ((s, e) :: rest) := List.pairwise_cons.mpr ⟨hse, hrest'⟩
      refine List.pairwise_cons.mpr ⟨?_, ih hs'⟩
      intro q hq
      have h1 : s ≤ q.1 := merge_scan_start_le hs' q hq
      omega

theorem merge_scan_valid {rest : List (Int × Int)} :
    ∀ {cur : Int × Int}, cur.1 ≤ cur.2 → (∀ p ∈ rest, p.1 ≤ p.2) →
      ∀ q ∈ merge_scan cur rest, q.1 ≤ q.2 := by
  induction rest with
  | nil =>
    intro cur hc _ q hq
    rcases List.mem_singleton.mp hq with rfl
    exact hc
  | cons p rest ih =>
    intro cur hc hv q hq
    obtain ⟨s, e⟩ := p
    rw [merge_scan] at hq
    by_cases hm : s ≤ cur.2 + 1
    · rw [if_pos hm] at hq
      refine ih ?_ (fun p hp => hv p (List.mem_cons_of_mem _ hp)) q hq
      exact le_trans hc (le_max_left _ _)
    · rw [if_neg hm] at hq
      rcases List.mem_cons.mp hq with rfl | hq'
      · exact hc
      · exact ih (hv (s, e) (List.mem_cons_self _ _)) (fun p hp => hv p (List.mem_cons_of_mem _ hp)) q hq'

theorem merge_scan_covers {rest : List (Int × Int)} :
    ∀ {cur : Int × Int}, SortedStarts (cur :: rest) → ∀ v : Int,
      (covers (merge_scan cur rest) v ↔ (cur.1 ≤ v ∧ v ≤ cur.2) ∨ covers rest v) := by
  induction rest with
  | nil =>
    intro cur _ v
    rw [merge_scan, covers_cons]
  | cons p rest ih =>
    intro cur hs v
    obtain ⟨s, e⟩ := p
    rcases List.pairwise_cons.mp hs with ⟨hcur, hrest⟩
    rcases List.pairwise_cons.mp hrest with ⟨hse, hrest'⟩
    have hcs : cur.1 ≤ s := hcur (s, e) (List.mem_cons_self _ _)
    rw [merge_scan]
    by_cases hm : s ≤ cur.2 + 1
    · rw [if_pos hm]
      have hs' : SortedStarts ((cur.1, max cur.2 e) :: rest) := by
        refine List.pairwise_cons.mpr ⟨?_, hrest'⟩
        intro q' hq'
        exact hcur q' (List.mem_cons_of_mem _ hq')
      rw [ih hs' v, covers_cons]
      constructor
      · rintro (⟨h1, h2⟩ | hr)
        · rcases le_or_lt v cur.2 with hv | hv
          · exact Or.inl ⟨h1, hv⟩
          · have h2' : v ≤ e := by
              rcases max_cases cur.2 e with ⟨hmax, -⟩ | ⟨hmax, -⟩ <;> omega
            exact Or.inr (Or.inl ⟨by omega, h2'⟩)
        · exact Or.inr (Or.inr hr)
      · rintro (⟨h1, h2⟩ | ⟨h1, h2⟩ | hr)
        · exact Or.inl ⟨h1, le_trans h2 (le_max_left _ _)⟩
        · exact Or.inl ⟨le_trans hcs h1, le_trans h2 (le_max_right _ _)⟩
        · exact Or.inr hr
    · rw [if_neg hm]
      have hs' : SortedStarts ((s, e) :: rest) := List.pairwise_cons.mpr ⟨hse, hrest'⟩
      rw [covers_cons, ih hs' v, covers_cons]

end Day9

namespace Day9

theorem sortedStarts_insertionSort (l : List (Int × Int)) :
    SortedStarts (List.insertionSort pairLE l) := by
  have h := List.sorted_insertionSort pairLE l
  refine h.imp ?_
  intro a b hab
  rcases hab with h1 | ⟨h1, -⟩
  · exact le_of_lt h1
  · exact le_of_eq h1

theorem merge_intervals_eq (l : List (Int × Int)) :
    merge_intervals l =
      match List.insertionSort pairLE l with
      | [] => []
      | h :: t => merge_scan h t := rfl

theorem merge_intervals_gap (l : List (Int × Int)) :
    List.Pairwise (fun a b : Int × Int => a.2 + 2 ≤ b.1) (merge_intervals l) := by
  rw [merge_intervals_eq]
  cases h : List.insertionSort pairLE l with
  | nil => exact List.Pairwise.nil
  | cons hd t =>
    have hs : SortedStarts (hd :: t) := h ▸ sortedStarts_insertionSort l
    exact merge_scan_gap hs

theorem merge_intervals_valid {l : List (Int × Int)} (hv : ∀ p ∈ l, p.1 ≤ p.2) :
    ∀ q ∈ merge_intervals l, q.1 ≤ q.2 := by
  rw [merge_intervals_eq]
  cases h : List.insertionSort pairLE l with
  | nil => intro q hq; exact absurd hq (List.not_mem_nil q)
  | cons hd t =>
    have hperm := List.perm_insertionSort pairLE l
    rw [h] at hperm
    have hv' : ∀ p ∈ hd :: t, p.1 ≤ p.2 := fun p hp => hv p (hperm.subset hp)
    exact merge_scan_valid (hv' hd (List.mem_cons_self _ _))
      (fun p hp => hv' p (List.mem_cons_of_mem _ hp))

theorem merge_intervals_covers (l : List (Int × Int)) (v : Int) :
    covers (merge_intervals l) v ↔ covers l v := by
  rw [merge_intervals_eq]
  cases h : List.insertionSort pairLE l with
  | nil =>
    have hperm := List.perm_insertionSort pairLE l
    rw [h] at hperm
    rw [hperm.symm.eq_nil]
  | cons hd t =>
    have hperm := List.perm_insertionSort pairLE l
    rw [h] at hperm
    have hs : SortedStarts (hd :: t) := h ▸ sortedStarts_insertionSort l
    rw [merge_scan_covers hs v, ← covers_cons]
    exact covers_of_perm hperm

theorem merge_intervals_start_lt {l : List (Int × Int)} (hv : ∀ p ∈ l, p.1 ≤ p.2) :
    List.Pairwise (fun a b : Int × Int => a.1 < b.1) (merge_intervals l) := by
  refine (merge_intervals_gap l).imp_of_mem ?_
  intro a b ha _ hab
  have := merge_intervals_valid hv a ha
  omega

theorem merge_intervals_touch {l : List (Int × Int)} (hv : ∀ p ∈ l, p.1 ≤ p.2)
    {a b : Int × Int} (ha : a ∈ l) (hb : b ∈ l) (hab : a.1 ≤ b.1)
    (htouch : b.1 ≤ a.2 + 1) :
    ∃ m ∈ merge_intervals l, m.1 ≤ a.1 ∧ a.2 ≤ m.2 ∧ m.1 ≤ b.1 ∧ b.2 ≤ m.2 := by
  have hva : a.1 ≤ a.2 := hv a ha
  have hvb : b.1 ≤ b.2 := hv b hb
  have hcov : covers (merge_intervals l) a.1 :=
    (merge_intervals_covers l a.1).mpr ⟨a, ha, le_refl _, hva⟩
  obtain ⟨m, hm, hm1, hm2⟩ := hcov
  have hc2 : max a.2 b.2 ≤ m.2 := by
    by_contra hlt
    push_neg at hlt
    have hwcov : covers l (m.2 + 1) := by
      rcases le_or_lt (m.2 + 1) a.2 with hw | hw
      · exact ⟨a, ha, by omega, hw⟩
      · refine ⟨b, hb, by omega, by omega⟩
    have hwcov' := (merge_intervals_covers l (m.2 + 1)).mpr hwcov
    obtain ⟨m', hm', h1', h2'⟩ := hwcov'
    rcases pairwise_mem_rel (merge_intervals_gap l) hm hm' with rfl | hR | hR
    · omega
    · omega
    · omega
  refine ⟨m, hm, hm1, by omega, le_trans hm1 hab, by omega⟩

/-- C5: for a list of inclusive integer intervals, `merge_intervals` returns a
sorted list whose consecutive spans are disjoint and non-adjacent (each start
exceeds the previous end by at least 2), any two input spans where one starts
at or before the other's end plus one end up inside a single output span, and
the union of covered integers is preserved. -/
theorem claim_C5 (l : List (Int × Int)) (hvalid : ∀ p ∈ l, p.1 ≤ p.2) :
    List.Pairwise (fun a b : Int × Int => a.1 < b.1 ∧ a.2 + 2 ≤ b.1) (merge_intervals l) ∧
    (∀ v : Int, covers (merge_intervals l) v ↔ covers l v) ∧
    (∀ a b : Int × Int, a ∈ l → b ∈ l → a.1 ≤ b.1 → b.1 ≤ a.2 + 1 →
      ∃ m ∈ merge_intervals l, m.1 ≤ a.1 ∧ a.2 ≤ m.2 ∧ m.1 ≤ b.1 ∧ b.2 ≤ m.2) := by
  refine ⟨(merge_intervals_start_lt hvalid).and (merge_intervals_gap l), ?_, ?_⟩
  · exact merge_intervals_covers l
  · intro a b ha hb hab htouch
    exact merge_intervals_touch hvalid ha hb hab htouch

/-- Witness for C5 at the concrete interval list `[(0,3),(9,12),(2,5)]`. -/
theorem claim_C5_witness :
    (∀ p ∈ [((0 : Int), (3 : Int)), (9, 12), (2, 5)], p.1 ≤ p.2) ∧
    (List.Pairwise (fun a b : Int × Int => a.1 < b.1 ∧ a.2 + 2 ≤ b.1)
        (merge_intervals [((0 : Int), (3 : Int)), (9, 12), (2, 5)]) ∧
      (∀ v : Int,
        covers (merge_intervals [((0 : Int), (3 : Int)), (9, 12), (2, 5)]) v ↔
          covers [((0 : Int), (3 : Int)), (9, 12), (2, 5)] v) ∧
      (∀ a b : Int × Int, a ∈ [((0 : Int), (3 : Int)), (9, 12), (2, 5)] →
        b ∈ [((0 : Int), (3 : Int)), (9, 12), (2, 5)] → a.1 ≤ b.1 → b.1 ≤ a.2 + 1 →
        ∃ m ∈ merge_intervals [((0 : Int), (3 : Int)), (9, 12), (2, 5)],
          m.1 ≤ a.1 ∧ a.2 ≤ m.2 ∧ m.1 ≤ b.1 ∧ b.2 ≤ m.2)) :=
  ⟨by decide, claim_C5 [((0 : Int), (3 : Int)), (9, 12), (2, 5)] (by decide)⟩

end Day9

namespace Day9

theorem interval_contains_go_empty_range (merged : List (Int × Int)) (value : Int)
    (fuel : Nat) {lo hi : Int} (h : hi < lo) :
    interval_contains_go merged value fuel lo hi = false := by
  cases fuel with
  | zero => rfl
  | succ fuel => rw [interval_contains_go, if_neg (by omega)]

theorem interval_contains_go_spec {merged : List (Int × Int)} {value : Int}
    (hgap : List.Pairwise (fun a b : Int × Int => a.2 + 2 ≤ b.1) merged)
    (hval : ∀ p ∈ merged, p.1 ≤ p.2) :
    ∀ (fuel : Nat) (lo hi : Int), 0 ≤ lo → hi < (merged.length : Int) →
      (hi - lo).toNat < fuel →
      (interval_contains_go merged value fuel lo hi = true ↔
        ∃ k : Nat, lo ≤ (k : Int) ∧ (k : Int) ≤ hi ∧ k < merged.length ∧
          (merged.getD k (0, 0)).1 ≤ value ∧ value ≤ (merged.getD k (0, 0)).2) := by
  have hstart : ∀ i j : Nat, i ≤ j → (hi : i < merged.length) → (hj : j < merged.length) →
      merged[i].1 ≤ merged[j].1 := by
    intro i j hij hi hj
    rcases Nat.eq_or_lt_of_le hij with rfl | hlt
    · exact le_refl _
    · have hg := List.pairwise_iff_getElem.mp hgap i j hi hj hlt
      have hv := hval merged[i] (List.getElem_mem hi)
      omega
  have hend : ∀ i j : Nat, i ≤ j → (hi : i < merged.length) → (hj : j < merged.length) →
      merged[i].2 ≤ merged[j].2 := by
    intro i j hij hi hj
    rcases Nat.eq_or_lt_of_le hij with rfl | hlt
    · exact le_refl _
    · have hg := List.pairwise_iff_getElem.mp hgap i j hi hj hlt
      have hv := hval merged[j] (List.getElem_mem hj)
      omega
  intro fuel
  induction fuel with
  | zero => intro lo hi _ _ h; exact absurd h (Nat.not_lt_zero _)
  | succ fuel ih =>
    intro lo hi hlo hhi hfuel
    by_cases hle : lo ≤ hi
    · rw [interval_contains_go, if_pos hle]
      have hmid1 : lo ≤ (lo + hi) / 2 := by omega
      have hmid2 : (lo + hi) / 2 ≤ hi := by omega
      have hmidlt : ((lo + hi) / 2).toNat < merged.length := by omega
      have hgetD : merged.getD ((lo + hi) / 2).toNat (0, 0) = merged[((lo + hi) / 2).toNat] :=
        List.getD_eq_getElem merged (0, 0) hmidlt
      simp only [hgetD]
      by_cases hv1 : value < merged[((lo + hi) / 2).toNat].1
      · rw [if_pos hv1]
        by_cases hrange : lo ≤ (lo + hi) / 2 - 1
        · rw [ih lo ((lo + hi) / 2 - 1) hlo (by omega) (by omega)]
          constructor
          · rintro ⟨k, h1, h2, h3, h4, h5⟩
            exact ⟨k, h1, by omega, h3, h4, h5⟩
          · rintro ⟨k, h1, h2, h3, h4, h5⟩
            refine ⟨k, h1, ?_, h3, h4, h5⟩
            by_contra hk
            push_neg at hk
            have : ((lo + hi) / 2).toNat ≤ k := by omega
            have := hstart ((lo + hi) / 2).toNat k this hmidlt h3
            rw [List.getD_eq_getElem merged (0, 0) h3] at h4 h5
            omega
        · rw [interval_contains_go_empty_range merged value fuel (by omega)]
          constructor
          · intro h; exact absurd h (by simp)
          · rintro ⟨k, h1, h2, h3, h4, h5⟩
            have : ((lo + hi) / 2).toNat ≤ k := by omega
            have := hstart ((lo + hi) / 2).toNat k this hmidlt h3
            rw [List.getD_eq_getElem merged (0, 0) h3] at h4 h5
            omega
      · rw [if_neg hv1]
        by_cases hv2 : merged[((lo + hi) / 2).toNat].2 < value
        · rw [if_pos hv2]
          by_cases hrange : (lo + hi) / 2 + 1 ≤ hi
          · rw [ih ((lo + hi) / 2 + 1) hi (by omega) hhi (by omega)]
            constructor
            · rintro ⟨k, h1, h2, h3, h4, h5⟩
              exact ⟨k, by omega, h2, h3, h4, h5⟩
            · rintro ⟨k, h1, h2, h3, h4, h5⟩
              refine ⟨k, ?_, h2, h3, h4, h5⟩
              by_contra hk
              push_neg at hk
              have : k ≤ ((lo + hi) / 2).toNat := by omega
              have := hend k ((lo + hi) / 2).toNat this h3 hmidlt
              rw [List.getD_eq_getElem merged (0, 0) h3] at h4 h5
              omega
          · rw [interval_contains_go_empty_range merged value fuel (by omega)]
            constructor
            · intro h; exact absurd h (by simp)
            · rintro ⟨k, h1, h2, h3, h4, h5⟩
              have : k ≤ ((lo + hi) / 2).toNat := by omega
              have := hend k ((lo + hi) / 2).toNat this h3 hmidlt
              rw [List.getD_eq_getElem merged (0, 0) h3] at h4 h5
              omega
        · rw [if_neg hv2]
          simp only [true_iff]
          refine ⟨((lo + hi) / 2).toNat, by omega, by omega, hmidlt, ?_⟩
          rw [List.getD_eq_getElem merged (0, 0) hmidlt]
          omega
    · rw [interval_contains_go, if_neg hle]
      constructor
      · intro h; exact absurd h (by simp)
      · rintro ⟨k, h1, h2, -⟩
        omega

/-- Correctness of the binary search on a gap-sorted valid interval list. -/
theorem interval_contains_spec {merged : List (Int × Int)} {value : Int}
    (hgap : List.Pairwise (fun a b : Int × Int => a.2 + 2 ≤ b.1) merged)
    (hval : ∀ p ∈ merged, p.1 ≤ p.2) :
    (interval_contains merged value = true ↔ covers merged value) := by
  rw [interval_contains]
  rcases List.eq_nil_or_concat merged with rfl | ⟨-, -, -⟩
  · rw [interval_contains_go_empty_range _ _ _ (by simp)]
    constructor
    · intro h; exact absurd h (by simp)
    · intro h; exact absurd h (covers_nil value)
  case inr =>
    rw [interval_contains_go_spec hgap hval (merged.length + 1) 0
      ((merged.length : Int) - 1) (le_refl 0) (by omega) (by omega)]
    constructor
    · rintro ⟨k, -, -, h3, h4, h5⟩
      rw [List.getD_eq_getElem merged (0, 0) h3] at h4 h5
      exact ⟨merged[k], List.getElem_mem h3, h4, h5⟩
    · rintro ⟨p, hp, h1, h2⟩
      obtain ⟨k, hk, rfl⟩ := List.mem_iff_getElem.mp hp
      refine ⟨k, by omega, by omega, hk, ?_⟩
      rw [List.getD_eq_getElem merged (0, 0) hk]
      exact ⟨h1, h2⟩

/-- `interval_contains` over the vertical interval map is membership in some
vertical edge at `x`. -/
theorem vertical_contains_iff {vertical_edges : List (Int × Int × Int)}
    (hval : ∀ e ∈ vertical_edges, e.2.1 ≤ e.2.2) (x y : Int) :
    (interval_contains (vertical_intervals_by_x vertical_edges x) y = true ↔
      ∃ e ∈ vertical_edges, e.1 = x ∧ e.2.1 ≤ y ∧ y ≤ e.2.2) := by
  have hlv : ∀ p ∈ (vertical_edges.filter (fun e => e.1 = x)).map
      (fun e => (e.2.1, e.2.2)), p.1 ≤ p.2 := by
    intro p hp
    obtain ⟨e, he, rfl⟩ := List.mem_map.mp hp
    exact hval e (List.mem_of_mem_filter he)
  rw [vertical_intervals_by_x]
  rw [interval_contains_spec (merge_intervals_gap _) (merge_intervals_valid hlv)]
  rw [merge_intervals_covers]
  constructor
  · rintro ⟨p, hp, h1, h2⟩
    obtain ⟨e, he, rfl⟩ := List.mem_map.mp hp
    rcases List.mem_filter.mp he with ⟨he', hx⟩
    exact ⟨e, he', by simpa using hx, h1, h2⟩
  · rintro ⟨e, he, hx, h1, h2⟩
    refine ⟨(e.2.1, e.2.2), List.mem_map.mpr ⟨e, List.mem_filter.mpr ⟨he, by simpa using hx⟩, rfl⟩, h1, h2⟩

/-- `interval_contains` over the horizontal interval map is membership in
some horizontal edge at `y`. -/
theorem horizontal_contains_iff {horizontal_edges : List (Int × Int × Int)}
    (hval : ∀ e ∈ horizontal_edges, e.2.1 ≤ e.2.2) (y x : Int) :
    (interval_contains (horizontal_intervals_by_y horizontal_edges y) x = true ↔
      ∃ e ∈ horizontal_edges, e.1 = y ∧ e.2.1 ≤ x ∧ x ≤ e.2.2) := by
  have hlv : ∀ p ∈ (horizontal_edges.filter (fun e => e.1 = y)).map
      (fun e => (e.2.1, e.2.2)), p.1 ≤ p.2 := by
    intro p hp
    obtain ⟨e, he, rfl⟩ := List.mem_map.mp hp
    exact hval e (List.mem_of_mem_filter he)
  rw [horizontal_intervals_by_y]
  rw [interval_contains_spec (merge_intervals_gap _) (merge_intervals_valid hlv)]
  rw [merge_intervals_covers]
  constructor
  · rintro ⟨p, hp, h1, h2⟩
    obtain ⟨e, he, rfl⟩ := List.mem_map.mp hp
    rcases List.mem_filter.mp he with ⟨he', hx⟩
    exact ⟨e, he', by simpa using hx, h1, h2⟩
  · rintro ⟨e, he, hx, h1, h2⟩
    refine ⟨(e.2.1, e.2.2), List.mem_map.mpr ⟨e, List.mem_filter.mpr ⟨he, by simpa using hx⟩, rfl⟩, h1, h2⟩

end Day9

namespace Day9

theorem build_edges_pairs_mem_v :
    ∀ (pairs : List ((Int × Int) × (Int × Int))) {vs hs},
      build_edges_pairs pairs = Except.ok (vs, hs) →
      ∀ e ∈ vs, ∃ a b : Int × Int,
        (a, b) ∈ pairs ∧ a.1 = b.1 ∧ e = (a.1, min a.2 b.2, max a.2 b.2) := by
  intro pairs
  induction pairs with
  | nil =>
    intro vs hs h e he
    rw [build_edges_pairs] at h
    simp only [Except.ok.injEq, Prod.mk.injEq] at h
    obtain ⟨h1, -⟩ := h
    subst h1
    exact absurd he (List.not_mem_nil e)
  | cons p rest ih =>
    obtain ⟨⟨x1, y1⟩, ⟨x2, y2⟩⟩ := p
    intro vs hs h e he
    rw [build_edges_pairs] at h
    by_cases hx : x1 = x2
    · rw [if_pos hx] at h
      cases hrec : build_edges_pairs rest with
      | error msg => rw [hrec] at h; exact absurd h (by simp)
      | ok vh =>
        obtain ⟨vs', hs'⟩ := vh
        rw [hrec] at h
        simp only [Except.ok.injEq, Prod.mk.injEq] at h
        obtain ⟨h1, -⟩ := h
        subst h1
        rcases List.mem_cons.mp he with rfl | he'
        · exact ⟨(x1, y1), (x2, y2), List.mem_cons_self _ _, hx, rfl⟩
        · obtain ⟨a, b, hab, h1, h2⟩ := ih hrec e he'
          exact ⟨a, b, List.mem_cons_of_mem _ hab, h1, h2⟩
    · rw [if_neg hx] at h
      by_cases hy : y1 = y2
      · rw [if_pos hy] at h
        cases hrec : build_edges_pairs rest with
        | error msg => rw [hrec] at h; exact absurd h (by simp)
        | ok vh =>
          obtain ⟨vs', hs'⟩ := vh
          rw [hrec] at h
          simp only [Except.ok.injEq, Prod.mk.injEq] at h
          obtain ⟨h1, -⟩ := h
          subst h1
          obtain ⟨a, b, hab, h1, h2⟩ := ih hrec e he
          exact ⟨a, b, List.mem_cons_of_mem _ hab, h1, h2⟩
      · rw [if_neg hy] at h; exact absurd h (by simp)

theorem build_edges_pairs_mem_h :
    ∀ (pairs : List ((Int × Int) × (Int × Int))) {vs hs},
      build_edges_pairs pairs = Except.ok (vs, hs) →
      ∀ e ∈ hs, ∃ a b : Int × Int,
        (a, b) ∈ pairs ∧ a.2 = b.2 ∧ e = (a.2, min a.1 b.1, max a.1 b.1) := by
  intro pairs
  induction pairs with
  | nil =>
    intro vs hs h e he
    rw [build_edges_pairs] at h
    simp only [Except.ok.injEq, Prod.mk.injEq] at h
    obtain ⟨-, h2⟩ := h
    subst h2
    exact absurd he (List.not_mem_nil e)
  | cons p rest ih =>
    obtain ⟨⟨x1, y1⟩, ⟨x2, y2⟩⟩ := p
    intro vs hs h e he
    rw [build_edges_pairs] at h
    by_cases hx : x1 = x2
    · rw [if_pos hx] at h
      cases hrec : build_edges_pairs rest with
      | error msg => rw [hrec] at h; exact absurd h (by simp)
      | ok vh =>
        obtain ⟨vs', hs'⟩ := vh
        rw [hrec] at h
        simp only [Except.ok.injEq, Prod.mk.injEq] at h
        obtain ⟨-, h2⟩ := h
        subst h2
        obtain ⟨a, b, hab, h1, h2⟩ := ih hrec e he
        exact ⟨a, b, List.mem_cons_of_mem _ hab, h1, h2⟩
    · rw [if_neg hx] at h
      by_cases hy : y1 = y2
      · rw [if_pos hy] at h
        cases hrec : build_edges_pairs rest with
        | error msg => rw [hrec] at h; exact absurd h (by simp)
        | ok vh =>
          obtain ⟨vs', hs'⟩ := vh
          rw [hrec] at h
          simp only [Except.ok.injEq, Prod.mk.injEq] at h
          obtain ⟨-, h2⟩ := h
          subst h2
          rcases List.mem_cons.mp he with rfl | he'
          · exact ⟨(x1, y1), (x2, y2), List.mem_cons_self _ _, hy, rfl⟩
          · obtain ⟨a, b, hab, h1, h2⟩ := ih hrec e he'
            exact ⟨a, b, List.mem_cons_of_mem _ hab, h1, h2⟩
      · rw [if_neg hy] at h; exact absurd h (by simp)

/-- Vertical edges produced by `build_edges` have `y_min ≤ y_max`, their `x`
is a vertex x-coordinate and both endpoints are vertex y-coordinates. -/
theorem build_edges_v_facts {coords : List (Int × Int)} {ve he : List (Int × Int × Int)}
    (h : build_edges coords = Except.ok (ve, he)) :
    ∀ e ∈ ve, e.2.1 ≤ e.2.2 ∧ e.1 ∈ coords.map Prod.fst ∧
      e.2.1 ∈ coords.map Prod.snd ∧ e.2.2 ∈ coords.map Prod.snd := by
  intro e hev
  obtain ⟨a, b, hab, -, he2⟩ := build_edges_pairs_mem_v _ h e hev
  have hmem := List.of_mem_zip hab
  have ha : a ∈ coords := hmem.1
  have hb : b ∈ coords := List.mem_rotate.mp hmem.2
  subst he2
  refine ⟨min_le_max, List.mem_map.mpr ⟨a, ha, rfl⟩, ?_, ?_⟩
  · show min a.2 b.2 ∈ coords.map Prod.snd
    rcases min_cases a.2 b.2 with ⟨hm, -⟩ | ⟨hm, -⟩ <;> rw [hm]
    · exact List.mem_map.mpr ⟨a, ha, rfl⟩
    · exact List.mem_map.mpr ⟨b, hb, rfl⟩
  · show max a.2 b.2 ∈ coords.map Prod.snd
    rcases max_cases a.2 b.2 with ⟨hm, -⟩ | ⟨hm, -⟩ <;> rw [hm]
    · exact List.mem_map.mpr ⟨a, ha, rfl⟩
    · exact List.mem_map.mpr ⟨b, hb, rfl⟩

/-- Horizontal edges produced by `build_edges` have `x_min ≤ x_max`, their `y`
is a vertex y-coordinate and both endpoints are vertex x-coordinates. -/
theorem build_edges_h_facts {coords : List (Int × Int)} {ve he : List (Int × Int × Int)}
    (h : build_edges coords = Except.ok (ve, he)) :
    ∀ e ∈ he, e.2.1 ≤ e.2.2 ∧ e.1 ∈ coords.map Prod.snd ∧
      e.2.1 ∈ coords.map Prod.fst ∧ e.2.2 ∈ coords.map Prod.fst := by
  intro e hev
  obtain ⟨a, b, hab, -, he2⟩ := build_edges_pairs_mem_h _ h e hev
  have hmem := List.of_mem_zip hab
  have ha : a ∈ coords := hmem.1
  have hb : b ∈ coords := List.mem_rotate.mp hmem.2
  subst he2
  refine ⟨min_le_max, List.mem_map.mpr ⟨a, ha, rfl⟩, ?_, ?_⟩
  · show min a.1 b.1 ∈ coords.map Prod.fst
    rcases min_cases a.1 b.1 with ⟨hm, -⟩ | ⟨hm, -⟩ <;> rw [hm]
    · exact List.mem_map.mpr ⟨a, ha, rfl⟩
    · exact List.mem_map.mpr ⟨b, hb, rfl⟩
  · show max a.1 b.1 ∈ coords.map Prod.fst
    rcases max_cases a.1 b.1 with ⟨hm, -⟩ | ⟨hm, -⟩ <;> rw [hm]
    · exact List.mem_map.mpr ⟨a, ha, rfl⟩
    · exact List.mem_map.mpr ⟨b, hb, rfl⟩

theorem build_edges_pairs_error :
    ∀ (pairs : List ((Int × Int) × (Int × Int))),
      (∃ p ∈ pairs, p.1.1 ≠ p.2.1 ∧ p.1.2 ≠ p.2.2) →
      build_edges_pairs pairs = Except.error "Non-orthogonal segment in input" := by
  intro pairs
  induction pairs with
  | nil => rintro ⟨p, hp, -⟩; exact absurd hp (List.not_mem_nil p)
  | cons p rest ih =>
    rintro ⟨q, hq, hq1, hq2⟩
    obtain ⟨⟨x1, y1⟩, ⟨x2, y2⟩⟩ := p
    rcases List.mem_cons.mp hq with rfl | hq'
    · rw [build_edges_pairs, if_neg hq1, if_neg hq2]
    · rw [build_edges_pairs]
      have hrec := ih ⟨q, hq', hq1, hq2⟩
      by_cases hx : x1 = x2
      · rw [if_pos hx, hrec]
      · rw [if_neg hx]
        by_cases hy : y1 = y2
        · rw [if_pos hy, hrec]
        · rw [if_neg hy]

end Day9

namespace Day9

/-- C6: a vertex list with a consecutive pair (including the wrap-around
last→first pair) sharing neither coordinate makes `build_edges` fail with the
geometry error, and the error propagates through `solve_part2` unchanged. -/
theorem claim_C6 (coords : List (Int × Int))
    (h : ∃ p ∈ coords.zip (coords.rotate 1), p.1.1 ≠ p.2.1 ∧ p.1.2 ≠ p.2.2) :
    build_edges coords = Except.error "Non-orthogonal segment in input" ∧
    solve_part2 coords = Except.error "Non-orthogonal segment in input" := by
  have hbe : build_edges coords = Except.error "Non-orthogonal segment in input" :=
    build_edges_pairs_error _ h
  refine ⟨hbe, ?_⟩
  obtain ⟨p, hp, -⟩ := h
  obtain ⟨a, b⟩ := p
  have hpc : a ∈ coords := (List.of_mem_zip hp).1
  cases coords with
  | nil => exact absurd hpc (List.not_mem_nil a)
  | cons c cs =>
    have hb : build_allowed_tiles_prefix_sum (c :: cs) =
        Except.error "Non-orthogonal segment in input" := by
      unfold build_allowed_tiles_prefix_sum
      simp only [get_bounding_box, hbe]
    unfold solve_part2
    rw [hb]

/-- Witness for C6 at the diagonal two-vertex input `[(0,0),(1,1)]`. -/
theorem claim_C6_witness :
    (∃ p ∈ ([((0 : Int), (0 : Int)), (1, 1)]).zip
        (([((0 : Int), (0 : Int)), (1, 1)]).rotate 1), p.1.1 ≠ p.2.1 ∧ p.1.2 ≠ p.2.2) ∧
    (build_edges [((0 : Int), (0 : Int)), (1, 1)] =
        Except.error "Non-orthogonal segment in input" ∧
      solve_part2 [((0 : Int), (0 : Int)), (1, 1)] =
        Except.error "Non-orthogonal segment in input") :=
  ⟨by decide, claim_C6 [((0 : Int), (0 : Int)), (1, 1)] (by decide)⟩

theorem part2_step_eq_unpruned (query : Int → Int → Int → Int → Int) (best : Int)
    (p : (Int × Int) × (Int × Int)) :
    part2_step query best p = part2_step_unpruned query best p := by
  simp only [part2_step, part2_step_unpruned]
  split_ifs <;> omega

/-- C9: the pruned candidate search of `solve_part2` agrees with the
unpruned variant that runs the coverage check for every pair. -/
theorem claim_C9 (coords : List (Int × Int)) :
    solve_part2 coords = solve_part2_unpruned coords := by
  unfold solve_part2 solve_part2_unpruned
  cases h : build_allowed_tiles_prefix_sum coords with
  | error msg => rfl
  | ok t =>
    obtain ⟨g, xs, ys⟩ := t
    have hstep : part2_step (count_allowed_tiles_in_rectangle g xs ys) =
        part2_step_unpruned (count_allowed_tiles_in_rectangle g xs ys) :=
      funext fun best => funext fun p => part2_step_eq_unpruned _ best p
    dsimp only
    rw [hstep]

/-- C3: in the scanline classification, a compressed cell whose
representative tile is reported on the boundary by `tile_is_on_boundary`
(that is, by `interval_contains` on the merged interval maps) gets its full
`width × height` weight, regardless of the ray-crossing parity. -/
theorem claim_C3 (coords : List (Int × Int)) (ve he : List (Int × Int × Int))
    (hedges : build_edges coords = Except.ok (ve, he))
    (min_x max_x min_y max_y : Int) (x_edges y_edges : List Int)
    (hxy : build_compressed_edges coords min_x max_x min_y max_y = (x_edges, y_edges))
    (r c : Nat)
    (hb : tile_is_on_boundary (x_edges.getD c 0) (y_edges.getD r 0)
        (vertical_intervals_by_x ve) (horizontal_intervals_by_y he) = true) :
    cell_weight_at x_edges ve (vertical_intervals_by_x ve) (horizontal_intervals_by_y he)
        (y_edges.getD r 0) (y_edges.getD (r + 1) 0 - y_edges.getD r 0) c =
      (x_edges.getD (c + 1) 0 - x_edges.getD c 0) *
        (y_edges.getD (r + 1) 0 - y_edges.getD r 0) := by
  have hc : inside_or_boundary ve (vertical_intervals_by_x ve)
      (horizontal_intervals_by_y he) (x_edges.getD c 0) (y_edges.getD r 0) = true := by
    rw [inside_or_boundary, hb, Bool.true_or]
  rw [cell_weight_at, if_pos hc]

/-- Witness for C3: the square `(0,0)-(3,0)-(3,2)-(0,2)`, cell `(0,0)` whose
representative `(0,0)` lies on the boundary. -/
theorem claim_C3_witness :
    build_edges [((0 : Int), (0 : Int)), (3, 0), (3, 2), (0, 2)] =
        Except.ok ([(3, 0, 2), (0, 0, 2)], [(0, 0, 3), (2, 0, 3)]) ∧
    build_compressed_edges [((0 : Int), (0 : Int)), (3, 0), (3, 2), (0, 2)] 0 3 0 2 =
        ([0, 1, 2, 3, 4], [0, 1, 2, 3]) ∧
    tile_is_on_boundary (([(0 : Int), 1, 2, 3, 4]).getD 0 0) (([(0 : Int), 1, 2, 3]).getD 0 0)
        (vertical_intervals_by_x [((3 : Int), (0 : Int), (2 : Int)), (0, 0, 2)])
        (horizontal_intervals_by_y [((0 : Int), (0 : Int), (3 : Int)), (2, 0, 3)]) = true ∧
    cell_weight_at [(0 : Int), 1, 2, 3, 4] [((3 : Int), (0 : Int), (2 : Int)), (0, 0, 2)]
        (vertical_intervals_by_x [((3 : Int), (0 : Int), (2 : Int)), (0, 0, 2)])
        (horizontal_intervals_by_y [((0 : Int), (0 : Int), (3 : Int)), (2, 0, 3)])
        (([(0 : Int), 1, 2, 3]).getD 0 0)
        (([(0 : Int), 1, 2, 3]).getD (0 + 1) 0 - ([(0 : Int), 1, 2, 3]).getD 0 0) 0 =
      (([(0 : Int), 1, 2, 3, 4]).getD (0 + 1) 0 - ([(0 : Int), 1, 2, 3, 4]).getD 0 0) *
        (([(0 : Int), 1, 2, 3]).getD (0 + 1) 0 - ([(0 : Int), 1, 2, 3]).getD 0 0) :=
  ⟨rfl, rfl, rfl,
    claim_C3 [((0 : Int), (0 : Int)), (3, 0), (3, 2), (0, 2)]
      [((3 : Int), (0 : Int), (2 : Int)), (0, 0, 2)]
      [((0 : Int), (0 : Int), (3 : Int)), (2, 0, 3)] rfl 0 3 0 2
      [(0 : Int), 1, 2, 3, 4] [(0 : Int), 1, 2, 3] rfl 0 0 rfl⟩

/-- C7 as stated is false: the empty input raises the bounding-box error
rather than returning 0, and a two-vertex collinear input returns the
positive area of its segment rectangle rather than 0. -/
theorem claim_C7_counterexample :
    solve_part2 [((0 : Int), (0 : Int)), ((3 : Int), (0 : Int))] = Except.ok 4 ∧
    solve_part2 ([] : List (Int × Int)) = Except.error "min() arg is an empty sequence" :=
  ⟨rfl, rfl⟩

/-- C7 amended: a one-vertex input returns area 0 without raising; the
zero-vertex input instead fails with the bounding-box (empty `min`) error,
and a two-vertex input either raises the geometry error (diagonal pair) or
returns the full area of the degenerate segment rectangle, which is positive
rather than 0. -/
theorem claim_C7 (c : Int × Int) : solve_part2 [c] = Except.ok 0 := by
  obtain ⟨x, y⟩ := c
  simp [solve_part2, build_allowed_tiles_prefix_sum, get_bounding_box, build_edges,
    build_edges_pairs, candidate_pairs, List.rotate]

end Day9

namespace Day9

theorem foldl_min_le_init (l : List Int) : ∀ i : Int, l.foldl min i ≤ i := by
  induction l with
  | nil => intro i; exact le_refl i
  | cons a l ih =>
    intro i
    calc (a :: l).foldl min i = l.foldl min (min i a) := rfl
    _ ≤ min i a := ih (min i a)
    _ ≤ i := min_le_left i a

theorem foldl_min_le_mem {l : List Int} {a : Int} (ha : a ∈ l) :
    ∀ i : Int, l.foldl min i ≤ a := by
  induction l with
  | nil => exact absurd ha (List.not_mem_nil a)
  | cons b l ih =>
    intro i
    rcases List.mem_cons.mp ha with rfl | ha'
    · exact le_trans (foldl_min_le_init l (min i a)) (min_le_right i a)
    · exact ih ha' (min i b)

theorem init_le_foldl_max (l : List Int) : ∀ i : Int, i ≤ l.foldl max i := by
  induction l with
  | nil => intro i; exact le_refl i
  | cons a l ih =>
    intro i
    calc i ≤ max i a := le_max_left i a
    _ ≤ l.foldl max (max i a) := ih (max i a)

theorem mem_le_foldl_max {l : List Int} {a : Int} (ha : a ∈ l) :
    ∀ i : Int, a ≤ l.foldl max i := by
  induction l with
  | nil => exact absurd ha (List.not_mem_nil a)
  | cons b l ih =>
    intro i
    rcases List.mem_cons.mp ha with rfl | ha'
    · exact le_trans (le_max_right i a) (init_le_foldl_max l (max i a))
    · exact ih ha' (max i b)

/-- The bounding box bounds every vertex. -/
theorem bounding_box_bounds {coords : List (Int × Int)} {min_x max_x min_y max_y : Int}
    (h : get_bounding_box coords = Except.ok (min_x, max_x, min_y, max_y)) :
    ∀ p ∈ coords, min_x ≤ p.1 ∧ p.1 ≤ max_x ∧ min_y ≤ p.2 ∧ p.2 ≤ max_y := by
  cases coords with
  | nil => exact absurd h (by simp [get_bounding_box])
  | cons c cs =>
    rw [get_bounding_box] at h
    simp only [Except.ok.injEq, Prod.mk.injEq] at h
    obtain ⟨h1, h2, h3, h4⟩ := h
    subst h1 h2 h3 h4
    intro p hp
    rcases List.mem_cons.mp hp with rfl | hp'
    · exact ⟨foldl_min_le_init _ _, init_le_foldl_max _ _,
        foldl_min_le_init _ _, init_le_foldl_max _ _⟩
    · exact ⟨foldl_min_le_mem (List.mem_map.mpr ⟨p, hp', rfl⟩) _,
        mem_le_foldl_max (List.mem_map.mpr ⟨p, hp', rfl⟩) _,
        foldl_min_le_mem (List.mem_map.mpr ⟨p, hp', rfl⟩) _,
        mem_le_foldl_max (List.mem_map.mpr ⟨p, hp', rfl⟩) _⟩

theorem get_bounding_box_ne_nil {coords : List (Int × Int)} {bb : Int × Int × Int × Int}
    (h : get_bounding_box coords = Except.ok bb) : coords ≠ [] := by
  intro hnil
  subst hnil
  exact absurd h (by simp [get_bounding_box])

/-- Membership characterisation of a compressed axis. -/
theorem mem_compress_axis {vals : List Int} {lo hi v : Int} :
    v ∈ compress_axis vals lo hi ↔
      (v = lo ∨ v = hi + 1 ∨
        ∃ u ∈ vals, (v = u - 1 ∨ v = u ∨ v = u + 1) ∧ lo ≤ v ∧ v ≤ hi + 1) := by
  rw [compress_axis, (List.perm_insertionSort _ _).mem_iff, List.mem_dedup]
  simp only [List.mem_cons, List.mem_flatMap, List.mem_filter, List.mem_singleton,
    decide_eq_true_eq, List.not_mem_nil, or_false]

/-- A compressed axis is strictly sorted. -/
theorem compress_axis_sorted (vals : List Int) (lo hi : Int) :
    List.Sorted (· < ·) (compress_axis vals lo hi) := by
  refine List.Sorted.lt_of_le (List.sorted_insertionSort _ _) ?_
  exact ((List.perm_insertionSort _ _).nodup_iff).mpr (List.nodup_dedup _)

/-- All compressed coordinates lie in `[lo, hi + 1]`. -/
theorem compress_axis_bounds {vals : List Int} {lo hi : Int} (hlh : lo ≤ hi + 1) :
    ∀ v ∈ compress_axis vals lo hi, lo ≤ v ∧ v ≤ hi + 1 := by
  intro v hv
  rcases mem_compress_axis.mp hv with rfl | rfl | ⟨-, -, -, h1, h2⟩
  · exact ⟨le_refl _, hlh⟩
  · exact ⟨hlh, le_refl _⟩
  · exact ⟨h1, h2⟩

/-- An in-range value and its successor both appear in the compressed axis. -/
theorem compress_axis_mem_of_val {vals : List Int} {lo hi v : Int}
    (hv : v ∈ vals) (h1 : lo ≤ v) (h2 : v ≤ hi) :
    v ∈ compress_axis vals lo hi ∧ v + 1 ∈ compress_axis vals lo hi := by
  constructor
  · exact mem_compress_axis.mpr
      (Or.inr (Or.inr ⟨v, hv, Or.inr (Or.inl rfl), h1, by omega⟩))
  · exact mem_compress_axis.mpr
      (Or.inr (Or.inr ⟨v, hv, Or.inr (Or.inr rfl), by omega, by omega⟩))

/-- C8: for any two input vertices, the four boundary coordinates of the
rectangle they span are present in the compressed coordinate arrays, so the
compressed-index lookups of `count_allowed_tiles_in_rectangle` cannot fail. -/
theorem claim_C8 (coords : List (Int × Int)) (x1 y1 x2 y2 : Int)
    (h1 : (x1, y1) ∈ coords) (h2 : (x2, y2) ∈ coords)
    (min_x max_x min_y max_y : Int)
    (hbb : get_bounding_box coords = Except.ok (min_x, max_x, min_y, max_y))
    (x_edges y_edges : List Int)
    (hxy : build_compressed_edges coords min_x max_x min_y max_y = (x_edges, y_edges)) :
    (min x1 x2 ∈ x_edges ∧ max x1 x2 + 1 ∈ x_edges ∧
      min y1 y2 ∈ y_edges ∧ max y1 y2 + 1 ∈ y_edges) ∧
    List.indexOf (min x1 x2) x_edges < x_edges.length ∧
    List.indexOf (max x1 x2 + 1) x_edges < x_edges.length ∧
    List.indexOf (min y1 y2) y_edges < y_edges.length ∧
    List.indexOf (max y1 y2 + 1) y_edges < y_edges.length := by
  obtain ⟨hx1a, hx1b, hy1a, hy1b⟩ := bounding_box_bounds hbb (x1, y1) h1
  obtain ⟨hx2a, hx2b, hy2a, hy2b⟩ := bounding_box_bounds hbb (x2, y2) h2
  rw [build_compressed_edges, Prod.mk.injEq] at hxy
  obtain ⟨hxe, hye⟩ := hxy
  subst hxe hye
  have hminx : min x1 x2 ∈ coords.map Prod.fst := by
    rcases min_cases x1 x2 with ⟨hm, -⟩ | ⟨hm, -⟩ <;> rw [hm]
    · exact List.mem_map.mpr ⟨(x1, y1), h1, rfl⟩
    · exact List.mem_map.mpr ⟨(x2, y2), h2, rfl⟩
  have hmaxx : max x1 x2 ∈ coords.map Prod.fst := by
    rcases max_cases x1 x2 with ⟨hm, -⟩ | ⟨hm, -⟩ <;> rw [hm]
    · exact List.mem_map.mpr ⟨(x1, y1), h1, rfl⟩
    · exact List.mem_map.mpr ⟨(x2, y2), h2, rfl⟩
  have hminy : min y1 y2 ∈ coords.map Prod.snd := by
    rcases min_cases y1 y2 with ⟨hm, -⟩ | ⟨hm, -⟩ <;> rw [hm]
    · exact List.mem_map.mpr ⟨(x1, y1), h1, rfl⟩
    · exact List.mem_map.mpr ⟨(x2, y2), h2, rfl⟩
  have hmaxy : max y1 y2 ∈ coords.map Prod.snd := by
    rcases max_cases y1 y2 with ⟨hm, -⟩ | ⟨hm, -⟩ <;> rw [hm]
    · exact List.mem_map.mpr ⟨(x1, y1), h1, rfl⟩
    · exact List.mem_map.mpr ⟨(x2, y2), h2, rfl⟩
  have m1 := (compress_axis_mem_of_val hminx (le_min hx1a hx2a)
    (le_trans (min_le_left _ _) hx1b)).1
  have m2 := (compress_axis_mem_of_val hmaxx (le_trans hx1a (le_max_left _ _))
    (max_le hx1b hx2b)).2
  have m3 := (compress_axis_mem_of_val hminy (le_min hy1a hy2a)
    (le_trans (min_le_left _ _) hy1b)).1
  have m4 := (compress_axis_mem_of_val hmaxy (le_trans hy1a (le_max_left _ _))
    (max_le hy1b hy2b)).2
  exact ⟨⟨m1, m2, m3, m4⟩, List.indexOf_lt_length.mpr m1, List.indexOf_lt_length.mpr m2,
    List.indexOf_lt_length.mpr m3, List.indexOf_lt_length.mpr m4⟩

/-- Witness for C8, on the square `(0,0)-(3,0)-(3,2)-(0,2)` with the pair
`(3,0)`, `(0,2)`. -/
theorem claim_C8_witness :
    ((3, 0) ∈ [((0 : Int), (0 : Int)), (3, 0), (3, 2), (0, 2)]) ∧
    ((0, 2) ∈ [((0 : Int), (0 : Int)), (3, 0), (3, 2), (0, 2)]) ∧
    get_bounding_box [((0 : Int), (0 : Int)), (3, 0), (3, 2), (0, 2)] =
      Except.ok (0, 3, 0, 2) ∧
    build_compressed_edges [((0 : Int), (0 : Int)), (3, 0), (3, 2), (0, 2)] 0 3 0 2 =
      ([0, 1, 2, 3, 4], [0, 1, 2, 3]) ∧
    ((min 3 0 ∈ [(0 : Int), 1, 2, 3, 4] ∧ max 3 0 + 1 ∈ [(0 : Int), 1, 2, 3, 4] ∧
        min 0 2 ∈ [(0 : Int), 1, 2, 3] ∧ max 0 2 + 1 ∈ [(0 : Int), 1, 2, 3]) ∧
      List.indexOf (min 3 0) [(0 : Int), 1, 2, 3, 4] < ([(0 : Int), 1, 2, 3, 4]).length ∧
      List.indexOf (max 3 0 + 1) [(0 : Int), 1, 2, 3, 4] < ([(0 : Int), 1, 2, 3, 4]).length ∧
      List.indexOf (min 0 2) [(0 : Int), 1, 2, 3] < ([(0 : Int), 1, 2, 3]).length ∧
      List.indexOf (max 0 2 + 1) [(0 : Int), 1, 2, 3] < ([(0 : Int), 1, 2, 3]).length) :=
  ⟨by decide, by decide, rfl, rfl,
    claim_C8 [((0 : Int), (0 : Int)), (3, 0), (3, 2), (0, 2)] 3 0 0 2 (by decide) (by decide)
      0 3 0 2 rfl [(0 : Int), 1, 2, 3, 4] [(0 : Int), 1, 2, 3] rfl⟩

end Day9

namespace Day9

theorem getD_tail_int (l : List Int) (c : Nat) : l.tail.getD c 0 = l.getD (c + 1) 0 := by
  cases l <;> rfl

theorem headD_eq_getD (l : List Int) : l.headD 0 = l.getD 0 0 := by
  cases l <;> rfl

theorem getD_replicate_zero (n c : Nat) : (List.replicate n (0 : Int)).getD c 0 = 0 := by
  induction n generalizing c with
  | zero => rfl
  | succ n ih =>
    cases c with
    | zero => rfl
    | succ c => exact ih c

theorem scan_add_getD :
    ∀ (ws prev : List Int) (run : Int) (c : Nat), c < ws.length →
      (scan_add prev ws run).getD c 0 =
        prev.getD c 0 + (run + ∑ j ∈ Finset.range (c + 1), ws.getD j 0) := by
  intro ws
  induction ws with
  | nil => intro prev run c hc; exact absurd hc (by simp)
  | cons w ws ih =>
    intro prev run c hc
    cases c with
    | zero =>
      rw [scan_add]
      show prev.headD 0 + (run + w) = _
      rw [headD_eq_getD, Finset.sum_range_one]
      rfl
    | succ c =>
      rw [scan_add]
      show (scan_add prev.tail ws (run + w)).getD c 0 = _
      rw [ih prev.tail (run + w) c (by simpa using hc), getD_tail_int]
      have hsum : ∑ j ∈ Finset.range (c + 1 + 1), (w :: ws).getD j 0 =
          ∑ j ∈ Finset.range (c + 1), ws.getD j 0 + w := by
        rw [Finset.sum_range_succ' (fun j => (w :: ws).getD j 0) (c + 1)]
        rfl
      rw [hsum]
      ring

theorem row_weights_getD (x_edges : List Int) (ve : List (Int × Int × Int))
    (vIntervals hIntervals : Int → List (Int × Int)) (y height : Int) {j : Nat}
    (hj : j < x_edges.length - 1) :
    (row_weights x_edges ve vIntervals hIntervals y height).getD j 0 =
      cell_weight_at x_edges ve vIntervals hIntervals y height j := by
  rw [row_weights]
  have hj' : j < ((List.range (x_edges.length - 1)).map
      (cell_weight_at x_edges ve vIntervals hIntervals y height)).length := by
    simpa using hj
  rw [List.getD_eq_getElem _ _ hj', List.getElem_map, List.getElem_range]

theorem row_weights_length (x_edges : List Int) (ve : List (Int × Int × Int))
    (vIntervals hIntervals : Int → List (Int × Int)) (y height : Int) :
    (row_weights x_edges ve vIntervals hIntervals y height).length = x_edges.length - 1 := by
  rw [row_weights, List.length_map, List.length_range]

theorem build_next_row_getD_zero (prev ws : List Int) :
    (build_next_row prev ws).getD 0 0 = 0 := rfl

theorem build_next_row_getD_succ (prev ws : List Int) (c : Nat) (hc : c < ws.length) :
    (build_next_row prev ws).getD (c + 1) 0 =
      prev.getD (c + 1) 0 + ∑ j ∈ Finset.range (c + 1), ws.getD j 0 := by
  rw [build_next_row]
  show (scan_add (prev.drop 1) ws 0).getD c 0 = _
  rw [scan_add_getD ws (prev.drop 1) 0 c hc, List.drop_one, getD_tail_int]
  ring

/-- Row `r` (0-based among the data rows), column `c` of the running prefix
construction, with `Q` the contents of the incoming previous row. -/
theorem build_prefix_rows_getD (x_edges : List Int) (ve : List (Int × Int × Int))
    (vIntervals hIntervals : Int → List (Int × Int)) :
    ∀ (y_pairs : List (Int × Int)) (prev : List Int) (Q : Nat → Int),
      (∀ c, c ≤ x_edges.length - 1 → prev.getD c 0 = Q c) → Q 0 = 0 →
      ∀ r, r < y_pairs.length → ∀ c, c ≤ x_edges.length - 1 →
        ((build_prefix_rows x_edges ve vIntervals hIntervals prev y_pairs).getD r []).getD c 0 =
          Q c + ∑ i ∈ Finset.range (r + 1), ∑ j ∈ Finset.range c,
            cell_weight_at x_edges ve vIntervals hIntervals
              ((y_pairs.getD i (0, 0)).1) ((y_pairs.getD i (0, 0)).2 - (y_pairs.getD i (0, 0)).1) j := by
  intro y_pairs
  induction y_pairs with
  | nil => intro prev Q hQ hQ0 r hr; exact absurd hr (by simp)
  | cons p rest ih =>
    intro prev Q hQ hQ0 r hr c hc
    obtain ⟨y0, y1⟩ := p
    have hrowc : ∀ c', c' ≤ x_edges.length - 1 →
        (build_next_row prev
            (row_weights x_edges ve vIntervals hIntervals y0 (y1 - y0))).getD c' 0 =
          Q c' + ∑ j ∈ Finset.range c',
            cell_weight_at x_edges ve vIntervals hIntervals y0 (y1 - y0) j := by
      intro c' hc'
      cases c' with
      | zero => rw [build_next_row_getD_zero, hQ0, Finset.sum_range_zero]; ring
      | succ c'' =>
        rw [build_next_row_getD_succ _ _ c''
          (by rw [row_weights_length]; omega)]
        rw [hQ (c'' + 1) hc']
        congr 1
        refine Finset.sum_congr rfl ?_
        intro j hj
        have hj' : j < x_edges.length - 1 := by
          rcases Finset.mem_range.mp hj with h
          omega
        rw [row_weights_getD _ _ _ _ _ _ hj']
    cases r with
    | zero =>
      rw [build_prefix_rows]
      show (build_next_row prev _).getD c 0 = _
      rw [hrowc c hc, Finset.sum_range_one]
      rfl
    | succ r' =>
      rw [build_prefix_rows]
      show ((build_prefix_rows x_edges ve vIntervals hIntervals _ rest).getD r' []).getD c 0 = _
      rw [ih (build_next_row prev (row_weights x_edges ve vIntervals hIntervals y0 (y1 - y0)))
        (fun c' => Q c' + ∑ j ∈ Finset.range c',
          cell_weight_at x_edges ve vIntervals hIntervals y0 (y1 - y0) j)
        hrowc (by simp [hQ0]) r' (by simpa using hr) c hc]
      have hsum : ∑ i ∈ Finset.range (r' + 1 + 1), ∑ j ∈ Finset.range c,
          cell_weight_at x_edges ve vIntervals hIntervals
            ((((y0, y1) :: rest).getD i (0, 0)).1)
            ((((y0, y1) :: rest).getD i (0, 0)).2 - (((y0, y1) :: rest).getD i (0, 0)).1) j =
          (∑ i ∈ Finset.range (r' + 1), ∑ j ∈ Finset.range c,
            cell_weight_at x_edges ve vIntervals hIntervals
              ((rest.getD i (0, 0)).1) ((rest.getD i (0, 0)).2 - (rest.getD i (0, 0)).1) j) +
          ∑ j ∈ Finset.range c,
            cell_weight_at x_edges ve vIntervals hIntervals y0 (y1 - y0) j := by
        rw [Finset.sum_range_succ' _ (r' + 1)]
        rfl
      rw [hsum]
      ring

end Day9

namespace Day9

theorem zip_tail_length (y_edges : List Int) :
    (y_edges.zip y_edges.tail).length = y_edges.length - 1 := by
  rw [List.length_zip, List.length_tail]
  omega

theorem zip_pair_getD (y_edges : List Int) {i : Nat}
    (hi : i < (y_edges.zip y_edges.tail).length) :
    (y_edges.zip y_edges.tail).getD i (0, 0) =
      (y_edges.getD i 0, y_edges.getD (i + 1) 0) := by
  have h1 : i < y_edges.length := by
    rw [List.length_zip, List.length_tail] at hi; omega
  have h2 : i < y_edges.tail.length := by
    rw [List.length_zip] at hi; omega
  have h3 : i + 1 < y_edges.length := by
    rw [List.length_tail] at h2; omega
  rw [List.getD_eq_getElem _ _ hi, List.getElem_zip]
  rw [List.getD_eq_getElem _ _ h1, List.getD_eq_getElem _ _ h3]
  rw [List.getElem_tail]

theorem scan_add_length : ∀ (ws prev : List Int) (run : Int),
    (scan_add prev ws run).length = ws.length := by
  intro ws
  induction ws with
  | nil => intro prev run; rfl
  | cons w ws ih =>
    intro prev run
    rw [scan_add]
    show (scan_add prev.tail ws (run + w)).length + 1 = _
    rw [ih]
    rfl

theorem build_next_row_length (prev ws : List Int) :
    (build_next_row prev ws).length = ws.length + 1 := by
  rw [build_next_row]
  show (scan_add (prev.drop 1) ws 0).length + 1 = _
  rw [scan_add_length]

theorem build_prefix_rows_length (x_edges : List Int) (ve : List (Int × Int × Int))
    (vIntervals hIntervals : Int → List (Int × Int)) :
    ∀ (y_pairs : List (Int × Int)) (prev : List Int),
      (build_prefix_rows x_edges ve vIntervals hIntervals prev y_pairs).length =
        y_pairs.length := by
  intro y_pairs
  induction y_pairs with
  | nil => intro prev; rfl
  | cons p rest ih =>
    intro prev
    obtain ⟨y0, y1⟩ := p
    rw [build_prefix_rows]
    show (build_prefix_rows x_edges ve vIntervals hIntervals _ rest).length + 1 = _
    rw [ih]
    rfl

theorem build_prefix_rows_mem_length (x_edges : List Int) (ve : List (Int × Int × Int))
    (vIntervals hIntervals : Int → List (Int × Int)) :
    ∀ (y_pairs : List (Int × Int)) (prev row : List Int),
      row ∈ build_prefix_rows x_edges ve vIntervals hIntervals prev y_pairs →
        row.length = (x_edges.length - 1) + 1 := by
  intro y_pairs
  induction y_pairs with
  | nil => intro prev row hrow; exact absurd hrow (List.not_mem_nil row)
  | cons p rest ih =>
    intro prev row hrow
    obtain ⟨y0, y1⟩ := p
    rw [build_prefix_rows] at hrow
    rcases List.mem_cons.mp hrow with rfl | hrow'
    · rw [build_next_row_length, row_weights_length]
    · exact ih _ row hrow'

theorem build_prefix_rows_getD_col_zero (x_edges : List Int) (ve : List (Int × Int × Int))
    (vIntervals hIntervals : Int → List (Int × Int)) :
    ∀ (y_pairs : List (Int × Int)) (prev : List Int) (r : Nat),
      ((build_prefix_rows x_edges ve vIntervals hIntervals prev y_pairs).getD r []).getD 0 0 =
        0 := by
  intro y_pairs
  induction y_pairs with
  | nil => intro prev r; cases r <;> rfl
  | cons p rest ih =>
    intro prev r
    obtain ⟨y0, y1⟩ := p
    rw [build_prefix_rows]
    cases r with
    | zero => rfl
    | succ r' => exact ih _ r'

/-- Closed form: entry `(r, c)` of the prefix grid is the double sum of cell
weights over rows `< r` and columns `< c`. -/
theorem build_prefix_sum_getD (x_edges y_edges : List Int) (ve : List (Int × Int × Int))
    (vIntervals hIntervals : Int → List (Int × Int)) {r c : Nat}
    (hr : r ≤ y_edges.length - 1) (hc : c ≤ x_edges.length - 1) :
    grid_entry (build_prefix_sum_from_scanlines x_edges y_edges ve vIntervals hIntervals) r c =
      ∑ i ∈ Finset.range r, ∑ j ∈ Finset.range c,
        cell_weight_at x_edges ve vIntervals hIntervals (y_edges.getD i 0)
          (y_edges.getD (i + 1) 0 - y_edges.getD i 0) j := by
  rw [grid_entry, build_prefix_sum_from_scanlines]
  cases r with
  | zero =>
    show (List.replicate (x_edges.length - 1 + 1) (0 : Int)).getD c 0 = _
    rw [getD_replicate_zero, Finset.sum_range_zero]
  | succ r' =>
    show ((build_prefix_rows x_edges ve vIntervals hIntervals _ _).getD r' []).getD c 0 = _
    have hr' : r' < (y_edges.zip y_edges.tail).length := by
      rw [zip_tail_length]; omega
    rw [build_prefix_rows_getD x_edges ve vIntervals hIntervals (y_edges.zip y_edges.tail)
      (List.replicate (x_edges.length - 1 + 1) 0) (fun _ => 0)
      (fun c' _ => getD_replicate_zero _ c') rfl r' hr' c hc]
    rw [zero_add]
    refine Finset.sum_congr rfl ?_
    intro i hi
    have hi' : i < (y_edges.zip y_edges.tail).length := by
      rcases Finset.mem_range.mp hi with h
      omega
    rw [zip_pair_getD y_edges hi']

theorem sum_range_split (f : Nat → Int) {m n : Nat} (h : m ≤ n) :
    ∑ i ∈ Finset.range n, f i = ∑ i ∈ Finset.range m, f i + ∑ i ∈ Finset.Ico m n, f i := by
  rw [Finset.range_eq_Ico]
  rw [Finset.sum_Ico_consecutive f (Nat.zero_le m) h]

/-- The prefix-sum rectangle identity, with the right side a double sum of
cell weights over the compressed index rectangle. -/
theorem prefix_rect_sum (x_edges y_edges : List Int) (ve : List (Int × Int × Int))
    (vIntervals hIntervals : Int → List (Int × Int)) {r1 r2 c1 c2 : Nat}
    (h12 : r1 ≤ r2) (hr : r2 ≤ y_edges.length - 1)
    (h34 : c1 ≤ c2) (hc : c2 ≤ x_edges.length - 1) :
    grid_entry (build_prefix_sum_from_scanlines x_edges y_edges ve vIntervals hIntervals) r2 c2 -
        grid_entry (build_prefix_sum_from_scanlines x_edges y_edges ve vIntervals hIntervals) r1 c2 -
        grid_entry (build_prefix_sum_from_scanlines x_edges y_edges ve vIntervals hIntervals) r2 c1 +
        grid_entry (build_prefix_sum_from_scanlines x_edges y_edges ve vIntervals hIntervals) r1 c1 =
      ∑ i ∈ Finset.Ico r1 r2, ∑ j ∈ Finset.Ico c1 c2,
        cell_weight_at x_edges ve vIntervals hIntervals (y_edges.getD i 0)
          (y_edges.getD (i + 1) 0 - y_edges.getD i 0) j := by
  rw [build_prefix_sum_getD x_edges y_edges ve vIntervals hIntervals hr hc,
    build_prefix_sum_getD x_edges y_edges ve vIntervals hIntervals (le_trans h12 hr) hc,
    build_prefix_sum_getD x_edges y_edges ve vIntervals hIntervals hr (le_trans h34 hc),
    build_prefix_sum_getD x_edges y_edges ve vIntervals hIntervals (le_trans h12 hr)
      (le_trans h34 hc)]
  rw [sum_range_split (fun i => ∑ j ∈ Finset.range c2,
    cell_weight_at x_edges ve vIntervals hIntervals (y_edges.getD i 0)
      (y_edges.getD (i + 1) 0 - y_edges.getD i 0) j) h12]
  rw [sum_range_split (fun i => ∑ j ∈ Finset.range c1,
    cell_weight_at x_edges ve vIntervals hIntervals (y_edges.getD i 0)
      (y_edges.getD (i + 1) 0 - y_edges.getD i 0) j) h12]
  have hinner : ∑ i ∈ Finset.Ico r1 r2, ∑ j ∈ Finset.range c2,
        cell_weight_at x_edges ve vIntervals hIntervals (y_edges.getD i 0)
          (y_edges.getD (i + 1) 0 - y_edges.getD i 0) j -
      ∑ i ∈ Finset.Ico r1 r2, ∑ j ∈ Finset.range c1,
        cell_weight_at x_edges ve vIntervals hIntervals (y_edges.getD i 0)
          (y_edges.getD (i + 1) 0 - y_edges.getD i 0) j =
      ∑ i ∈ Finset.Ico r1 r2, ∑ j ∈ Finset.Ico c1 c2,
        cell_weight_at x_edges ve vIntervals hIntervals (y_edges.getD i 0)
          (y_edges.getD (i + 1) 0 - y_edges.getD i 0) j := by
    rw [← Finset.sum_sub_distrib]
    refine Finset.sum_congr rfl ?_
    intro i _
    rw [sum_range_split (fun j =>
      cell_weight_at x_edges ve vIntervals hIntervals (y_edges.getD i 0)
        (y_edges.getD (i + 1) 0 - y_edges.getD i 0) j) h34]
    ring
  rw [← hinner]
  ring

end Day9

namespace Day9

/-- C4: the prefix grid has dimensions `(row_count+1) × (column_count+1)`,
zero first row and first column, and satisfies the prefix-sum rectangle
identity against the double sum of cell weights (cell width × height when
allowed, else 0). -/
theorem claim_C4 (x_edges y_edges : List Int) (ve : List (Int × Int × Int))
    (vIntervals hIntervals : Int → List (Int × Int)) (g : List (List Int))
    (hg : g = build_prefix_sum_from_scanlines x_edges y_edges ve vIntervals hIntervals) :
    g.length = (y_edges.length - 1) + 1 ∧
    (∀ row ∈ g, row.length = (x_edges.length - 1) + 1) ∧
    (∀ c, grid_entry g 0 c = 0) ∧
    (∀ r, grid_entry g r 0 = 0) ∧
    (∀ r1 r2 c1 c2 : Nat, r1 ≤ r2 → r2 ≤ y_edges.length - 1 → c1 ≤ c2 →
      c2 ≤ x_edges.length - 1 →
      grid_entry g r2 c2 - grid_entry g r1 c2 - grid_entry g r2 c1 + grid_entry g r1 c1 =
        ∑ i ∈ Finset.Ico r1 r2, ∑ j ∈ Finset.Ico c1 c2,
          cell_weight_at x_edges ve vIntervals hIntervals (y_edges.getD i 0)
            (y_edges.getD (i + 1) 0 - y_edges.getD i 0) j) := by
  subst hg
  refine ⟨?_, ?_, ?_, ?_, ?_⟩
  · rw [build_prefix_sum_from_scanlines]
    show (build_prefix_rows _ _ _ _ _ _).length + 1 = _
    rw [build_prefix_rows_length, zip_tail_length]
  · intro row hrow
    rw [build_prefix_sum_from_scanlines] at hrow
    rcases List.mem_cons.mp hrow with rfl | hrow'
    · rw [List.length_replicate]
    · exact build_prefix_rows_mem_length _ _ _ _ _ _ row hrow'
  · intro c
    rw [build_prefix_sum_from_scanlines, grid_entry]
    show (List.replicate (x_edges.length - 1 + 1) (0 : Int)).getD c 0 = 0
    exact getD_replicate_zero _ c
  · intro r
    rw [build_prefix_sum_from_scanlines, grid_entry]
    cases r with
    | zero => exact getD_replicate_zero _ 0
    | succ r' =>
      show ((build_prefix_rows _ _ _ _ _ _).getD r' []).getD 0 0 = 0
      exact build_prefix_rows_getD_col_zero _ _ _ _ _ _ r'
  · intro r1 r2 c1 c2 h12 hr h34 hc
    exact prefix_rect_sum x_edges y_edges ve vIntervals hIntervals h12 hr h34 hc

/-- Witness for C4 at a concrete grid (`x_edges = [0,2,3]`, `y_edges =
[0,1,3]`, no edges), including one fully instantiated rectangle identity. -/
theorem claim_C4_witness :
    ((build_prefix_sum_from_scanlines [(0 : Int), 2, 3] [(0 : Int), 1, 3] []
          (fun _ => []) (fun _ => [])).length = (([(0 : Int), 1, 3]).length - 1) + 1 ∧
      (∀ row ∈ build_prefix_sum_from_scanlines [(0 : Int), 2, 3] [(0 : Int), 1, 3] []
          (fun _ => []) (fun _ => []), row.length = (([(0 : Int), 2, 3]).length - 1) + 1) ∧
      (∀ c, grid_entry (build_prefix_sum_from_scanlines [(0 : Int), 2, 3] [(0 : Int), 1, 3] []
          (fun _ => []) (fun _ => [])) 0 c = 0) ∧
      (∀ r, grid_entry (build_prefix_sum_from_scanlines [(0 : Int), 2, 3] [(0 : Int), 1, 3] []
          (fun _ => []) (fun _ => [])) r 0 = 0) ∧
      (∀ r1 r2 c1 c2 : Nat, r1 ≤ r2 → r2 ≤ ([(0 : Int), 1, 3]).length - 1 → c1 ≤ c2 →
        c2 ≤ ([(0 : Int), 2, 3]).length - 1 →
        grid_entry (build_prefix_sum_from_scanlines [(0 : Int), 2, 3] [(0 : Int), 1, 3] []
            (fun _ => []) (fun _ => [])) r2 c2 -
          grid_entry (build_prefix_sum_from_scanlines [(0 : Int), 2, 3] [(0 : Int), 1, 3] []
            (fun _ => []) (fun _ => [])) r1 c2 -
          grid_entry (build_prefix_sum_from_scanlines [(0 : Int), 2, 3] [(0 : Int), 1, 3] []
            (fun _ => []) (fun _ => [])) r2 c1 +
          grid_entry (build_prefix_sum_from_scanlines [(0 : Int), 2, 3] [(0 : Int), 1, 3] []
            (fun _ => []) (fun _ => [])) r1 c1 =
          ∑ i ∈ Finset.Ico r1 r2, ∑ j ∈ Finset.Ico c1 c2,
            cell_weight_at [(0 : Int), 2, 3] [] (fun _ => []) (fun _ => [])
              (([(0 : Int), 1, 3]).getD i 0)
              (([(0 : Int), 1, 3]).getD (i + 1) 0 - ([(0 : Int), 1, 3]).getD i 0) j)) ∧
    grid_entry (build_prefix_sum_from_scanlines [(0 : Int), 2, 3] [(0 : Int), 1, 3] []
        (fun _ => []) (fun _ => [])) 2 2 -
      grid_entry (build_prefix_sum_from_scanlines [(0 : Int), 2, 3] [(0 : Int), 1, 3] []
        (fun _ => []) (fun _ => [])) 0 2 -
      grid_entry (build_prefix_sum_from_scanlines [(0 : Int), 2, 3] [(0 : Int), 1, 3] []
        (fun _ => []) (fun _ => [])) 2 0 +
      grid_entry (build_prefix_sum_from_scanlines [(0 : Int), 2, 3] [(0 : Int), 1, 3] []
        (fun _ => []) (fun _ => [])) 0 0 =
      ∑ i ∈ Finset.Ico 0 2, ∑ j ∈ Finset.Ico 0 2,
        cell_weight_at [(0 : Int), 2, 3] [] (fun _ => []) (fun _ => [])
          (([(0 : Int), 1, 3]).getD i 0)
          (([(0 : Int), 1, 3]).getD (i + 1) 0 - ([(0 : Int), 1, 3]).getD i 0) j := by
  have h := claim_C4 [(0 : Int), 2, 3] [(0 : Int), 1, 3] [] (fun _ => []) (fun _ => []) _ rfl
  exact ⟨h, h.2.2.2.2 0 2 0 2 (by omega) (by decide) (by omega) (by decide)⟩

end Day9

namespace Day9

theorem tile_boundary_eq_brute {ve he : List (Int × Int × Int)}
    (hv : ∀ e ∈ ve, e.2.1 ≤ e.2.2) (hh : ∀ e ∈ he, e.2.1 ≤ e.2.2) (x y : Int) :
    tile_is_on_boundary x y (vertical_intervals_by_x ve) (horizontal_intervals_by_y he) =
      brute_on_boundary ve he x y := by
  rw [Bool.eq_iff_iff, tile_is_on_boundary, brute_on_boundary]
  simp only [Bool.or_eq_true, List.any_eq_true, decide_eq_true_eq]
  rw [horizontal_contains_iff hh y x, vertical_contains_iff hv x y]

theorem bisect_eq_crossings (ve : List (Int × Int × Int)) (x y : Int) :
    bisect_left (build_crossing_x_values_for_row y ve) x = crossings_left ve x y := by
  rw [bisect_left, build_crossing_x_values_for_row, crossings_left]
  rw [(List.perm_insertionSort _ _).countP_eq]
  rw [List.countP_map, List.countP_filter]
  refine List.countP_congr ?_
  intro e _
  simp only [Function.comp, Bool.and_eq_true, decide_eq_true_eq]
  constructor
  · rintro ⟨h1, -, h2, h3⟩
    exact ⟨h2, h3, h1⟩
  · rintro ⟨h1, h2, h3⟩
    exact ⟨h3, by omega, h1, h2⟩

/-- The per-cell engine classification agrees pointwise with the brute-force
per-tile classifier, given valid edge lists. -/
theorem inside_or_boundary_eq_brute {ve he : List (Int × Int × Int)}
    (hv : ∀ e ∈ ve, e.2.1 ≤ e.2.2) (hh : ∀ e ∈ he, e.2.1 ≤ e.2.2) (x y : Int) :
    inside_or_boundary ve (vertical_intervals_by_x ve) (horizontal_intervals_by_y he) x y =
      brute_allowed ve he x y := by
  rw [inside_or_boundary, brute_allowed, tile_boundary_eq_brute hv hh,
    bisect_eq_crossings]

theorem sorted_getD_le_getD {l : List Int} (hs : List.Sorted (· < ·) l) {a b : Nat}
    (hab : a ≤ b) (hb : b < l.length) : l.getD a 0 ≤ l.getD b 0 := by
  rcases Nat.eq_or_lt_of_le hab with rfl | hlt
  · exact le_refl _
  · rw [List.getD_eq_getElem _ _ (lt_trans hlt hb), List.getD_eq_getElem _ _ hb]
    exact le_of_lt (List.pairwise_iff_getElem.mp hs a b _ _ hlt)

theorem sorted_no_middle {l : List Int} (hs : List.Sorted (· < ·) l) {j : Nat}
    (hj : j + 1 < l.length) {w : Int} (hw : w ∈ l) :
    w ≤ l.getD j 0 ∨ l.getD (j + 1) 0 ≤ w := by
  obtain ⟨k, hk, rfl⟩ := List.mem_iff_getElem.mp hw
  rcases le_or_lt k j with h | h
  · left
    rw [← List.getD_eq_getElem l 0 hk]
    exact sorted_getD_le_getD hs h (by omega)
  · right
    rw [← List.getD_eq_getElem l 0 hk]
    exact sorted_getD_le_getD hs h hk

theorem thresh_le_iff {l : List Int} (hs : List.Sorted (· < ·) l) {j : Nat}
    (hj : j + 1 < l.length) {t x : Int} (ht : t ∈ l)
    (hx1 : l.getD j 0 ≤ x) (hx2 : x < l.getD (j + 1) 0) :
    (t ≤ x ↔ t ≤ l.getD j 0) := by
  rcases sorted_no_middle hs hj ht with h | h <;> omega

theorem thresh_lt_iff {l : List Int} (hs : List.Sorted (· < ·) l) {j : Nat}
    (hj : j + 1 < l.length) {t x : Int} (ht : t ∈ l)
    (hx1 : l.getD j 0 ≤ x) (hx2 : x < l.getD (j + 1) 0) :
    (x < t ↔ l.getD j 0 < t) := by
  rcases sorted_no_middle hs hj ht with h | h <;> omega

theorem thresh_lt_vertex_iff {l : List Int} (hs : List.Sorted (· < ·) l) {j : Nat}
    (hj : j + 1 < l.length) {t x : Int} (ht : t ∈ l) (ht1 : t + 1 ∈ l)
    (hx1 : l.getD j 0 ≤ x) (hx2 : x < l.getD (j + 1) 0) :
    (t < x ↔ t < l.getD j 0) := by
  rcases sorted_no_middle hs hj ht with h | h <;>
    rcases sorted_no_middle hs hj ht1 with h1 | h1 <;> omega

theorem thresh_eq_vertex_iff {l : List Int} (hs : List.Sorted (· < ·) l) {j : Nat}
    (hj : j + 1 < l.length) {t x : Int} (ht : t ∈ l) (ht1 : t + 1 ∈ l)
    (hx1 : l.getD j 0 ≤ x) (hx2 : x < l.getD (j + 1) 0) :
    (t = x ↔ t = l.getD j 0) := by
  rcases sorted_no_middle hs hj ht with h | h <;>
    rcases sorted_no_middle hs hj ht1 with h1 | h1 <;> omega

theorem list_any_congr {α : Type} {p q : α → Bool} {l : List α}
    (h : ∀ e ∈ l, p e = q e) : l.any p = l.any q := by
  induction l with
  | nil => rfl
  | cons a l ih =>
    rw [List.any_cons, List.any_cons, h a (List.mem_cons_self _ _),
      ih fun e he => h e (List.mem_cons_of_mem _ he)]

/-- Uniformity of the brute-force classifier across a compressed x-cell. -/
theorem brute_allowed_const_x {ve he : List (Int × Int × Int)} {XS : List Int}
    (hs : List.Sorted (· < ·) XS)
    (hve : ∀ e ∈ ve, e.1 ∈ XS ∧ e.1 + 1 ∈ XS)
    (hhe : ∀ e ∈ he, e.2.1 ∈ XS ∧ e.2.2 + 1 ∈ XS)
    {j : Nat} (hj : j + 1 < XS.length) {x : Int}
    (hx1 : XS.getD j 0 ≤ x) (hx2 : x < XS.getD (j + 1) 0) (y : Int) :
    brute_allowed ve he x y = brute_allowed ve he (XS.getD j 0) y := by
  have hcross : crossings_left ve x y = crossings_left ve (XS.getD j 0) y := by
    rw [crossings_left, crossings_left]
    refine List.countP_congr ?_
    intro e he'
    obtain ⟨he1, he2⟩ := hve e he'
    simp only [decide_eq_true_eq]
    exact and_congr Iff.rfl (and_congr Iff.rfl
      (thresh_lt_vertex_iff hs hj he1 he2 hx1 hx2))
  have hbdy : brute_on_boundary ve he x y = brute_on_boundary ve he (XS.getD j 0) y := by
    rw [brute_on_boundary, brute_on_boundary]
    have h1 : ∀ e ∈ he, (decide (e.1 = y ∧ e.2.1 ≤ x ∧ x ≤ e.2.2) : Bool) =
        decide (e.1 = y ∧ e.2.1 ≤ XS.getD j 0 ∧ XS.getD j 0 ≤ e.2.2) := by
      intro e he'
      obtain ⟨he1, he2⟩ := hhe e he'
      rw [decide_eq_decide]
      refine and_congr Iff.rfl (and_congr (thresh_le_iff hs hj he1 hx1 hx2) ?_)
      rw [← Int.lt_add_one_iff, ← Int.lt_add_one_iff]
      exact thresh_lt_iff hs hj he2 hx1 hx2
    have h2 : ∀ e ∈ ve, (decide (e.1 = x ∧ e.2.1 ≤ y ∧ y ≤ e.2.2) : Bool) =
        decide (e.1 = XS.getD j 0 ∧ e.2.1 ≤ y ∧ y ≤ e.2.2) := by
      intro e he'
      obtain ⟨he1, he2⟩ := hve e he'
      rw [decide_eq_decide]
      exact and_congr (thresh_eq_vertex_iff hs hj he1 he2 hx1 hx2) Iff.rfl
    rw [list_any_congr h1, list_any_congr h2]
  rw [brute_allowed, brute_allowed, hcross, hbdy]

/-- Uniformity of the brute-force classifier across a compressed y-cell. -/
theorem brute_allowed_const_y {ve he : List (Int × Int × Int)} {YS : List Int}
    (hs : List.Sorted (· < ·) YS)
    (hve : ∀ e ∈ ve, e.2.1 ∈ YS ∧ e.2.2 ∈ YS ∧ e.2.2 + 1 ∈ YS)
    (hhe : ∀ e ∈ he, e.1 ∈ YS ∧ e.1 + 1 ∈ YS)
    {i : Nat} (hi : i + 1 < YS.length) {y : Int}
    (hy1 : YS.getD i 0 ≤ y) (hy2 : y < YS.getD (i + 1) 0) (x : Int) :
    brute_allowed ve he x y = brute_allowed ve he x (YS.getD i 0) := by
  have hcross : crossings_left ve x y = crossings_left ve x (YS.getD i 0) := by
    rw [crossings_left, crossings_left]
    refine List.countP_congr ?_
    intro e he'
    obtain ⟨he1, he2, he3⟩ := hve e he'
    simp only [decide_eq_true_eq]
    exact and_congr (thresh_le_iff hs hi he1 hy1 hy2)
      (and_congr (thresh_lt_iff hs hi he2 hy1 hy2) Iff.rfl)
  have hbdy : brute_on_boundary ve he x y = brute_on_boundary ve he x (YS.getD i 0) := by
    rw [brute_on_boundary, brute_on_boundary]
    have h1 : ∀ e ∈ he, (decide (e.1 = y ∧ e.2.1 ≤ x ∧ x ≤ e.2.2) : Bool) =
        decide (e.1 = YS.getD i 0 ∧ e.2.1 ≤ x ∧ x ≤ e.2.2) := by
      intro e he'
      obtain ⟨he1, he2⟩ := hhe e he'
      rw [decide_eq_decide]
      exact and_congr (thresh_eq_vertex_iff hs hi he1 he2 hy1 hy2) Iff.rfl
    have h2 : ∀ e ∈ ve, (decide (e.1 = x ∧ e.2.1 ≤ y ∧ y ≤ e.2.2) : Bool) =
        decide (e.1 = x ∧ e.2.1 ≤ YS.getD i 0 ∧ YS.getD i 0 ≤ e.2.2) := by
      intro e he'
      obtain ⟨he1, he2, he3⟩ := hve e he'
      rw [decide_eq_decide]
      refine and_congr Iff.rfl (and_congr (thresh_le_iff hs hi he1 hy1 hy2) ?_)
      rw [← Int.lt_add_one_iff, ← Int.lt_add_one_iff]
      exact thresh_lt_iff hs hi he3 hy1 hy2
    rw [list_any_congr h1, list_any_congr h2]
  rw [brute_allowed, brute_allowed, hcross, hbdy]

end Day9

namespace Day9

theorem map_fst_bounds {coords : List (Int × Int)} {min_x max_x min_y max_y : Int}
    (hbb : get_bounding_box coords = Except.ok (min_x, max_x, min_y, max_y)) :
    ∀ v ∈ coords.map Prod.fst, min_x ≤ v ∧ v ≤ max_x := by
  intro v hv
  obtain ⟨p, hp, rfl⟩ := List.mem_map.mp hv
  have h := bounding_box_bounds hbb p hp
  exact ⟨h.1, h.2.1⟩

theorem map_snd_bounds {coords : List (Int × Int)} {min_x max_x min_y max_y : Int}
    (hbb : get_bounding_box coords = Except.ok (min_x, max_x, min_y, max_y)) :
    ∀ v ∈ coords.map Prod.snd, min_y ≤ v ∧ v ≤ max_y := by
  intro v hv
  obtain ⟨p, hp, rfl⟩ := List.mem_map.mp hv
  have h := bounding_box_bounds hbb p hp
  exact ⟨h.2.2.1, h.2.2.2⟩

/-- All coordinates of a vertical edge, and their relevant successors, appear
in the compressed axes. -/
theorem edges_compressed_v {coords : List (Int × Int)} {ve he : List (Int × Int × Int)}
    {min_x max_x min_y max_y : Int}
    (hbb : get_bounding_box coords = Except.ok (min_x, max_x, min_y, max_y))
    (hedges : build_edges coords = Except.ok (ve, he)) :
    ∀ e ∈ ve,
      (e.1 ∈ compress_axis (coords.map Prod.fst) min_x max_x ∧
        e.1 + 1 ∈ compress_axis (coords.map Prod.fst) min_x max_x) ∧
      (e.2.1 ∈ compress_axis (coords.map Prod.snd) min_y max_y ∧
        e.2.2 ∈ compress_axis (coords.map Prod.snd) min_y max_y ∧
        e.2.2 + 1 ∈ compress_axis (coords.map Prod.snd) min_y max_y) := by
  intro e he'
  obtain ⟨-, hx, hy1, hy2⟩ := build_edges_v_facts hedges e he'
  obtain ⟨hxa, hxb⟩ := map_fst_bounds hbb e.1 hx
  obtain ⟨h1a, h1b⟩ := map_snd_bounds hbb e.2.1 hy1
  obtain ⟨h2a, h2b⟩ := map_snd_bounds hbb e.2.2 hy2
  exact ⟨compress_axis_mem_of_val hx hxa hxb,
    (compress_axis_mem_of_val hy1 h1a h1b).1,
    (compress_axis_mem_of_val hy2 h2a h2b).1,
    (compress_axis_mem_of_val hy2 h2a h2b).2⟩

/-- All coordinates of a horizontal edge, and their relevant successors,
appear in the compressed axes. -/
theorem edges_compressed_h {coords : List (Int × Int)} {ve he : List (Int × Int × Int)}
    {min_x max_x min_y max_y : Int}
    (hbb : get_bounding_box coords = Except.ok (min_x, max_x, min_y, max_y))
    (hedges : build_edges coords = Except.ok (ve, he)) :
    ∀ e ∈ he,
      (e.1 ∈ compress_axis (coords.map Prod.snd) min_y max_y ∧
        e.1 + 1 ∈ compress_axis (coords.map Prod.snd) min_y max_y) ∧
      (e.2.1 ∈ compress_axis (coords.map Prod.fst) min_x max_x ∧
        e.2.2 + 1 ∈ compress_axis (coords.map Prod.fst) min_x max_x) := by
  intro e he'
  obtain ⟨-, hy, hx1, hx2⟩ := build_edges_h_facts hedges e he'
  obtain ⟨hya, hyb⟩ := map_snd_bounds hbb e.1 hy
  obtain ⟨h1a, h1b⟩ := map_fst_bounds hbb e.2.1 hx1
  obtain ⟨h2a, h2b⟩ := map_fst_bounds hbb e.2.2 hx2
  exact ⟨compress_axis_mem_of_val hy hya hyb,
    (compress_axis_mem_of_val hx1 h1a h1b).1,
    (compress_axis_mem_of_val hx2 h2a h2b).2⟩

theorem sum_Ico_int_consecutive (f : Int → Int) {a b c : Int} (h1 : a ≤ b) (h2 : b ≤ c) :
    ∑ x ∈ Finset.Ico a b, f x + ∑ x ∈ Finset.Ico b c, f x = ∑ x ∈ Finset.Ico a c, f x := by
  rw [← Finset.Ico_union_Ico_eq_Ico h1 h2]
  rw [Finset.sum_union (Finset.Ico_disjoint_Ico_consecutive a b c)]

theorem int_Ico_succ_right (a b : Int) : Finset.Ico a (b + 1) = Finset.Icc a b := by
  ext w
  simp [Finset.mem_Ico, Finset.mem_Icc, Int.lt_add_one_iff]

/-- Splitting a sum over the tiles between two compressed coordinates into
sums over the compressed cells between them. -/
theorem sum_Ico_getD_split (l : List Int) (hs : List.Sorted (· < ·) l) (f : Int → Int) :
    ∀ {a b : Nat}, a ≤ b → b < l.length →
      ∑ x ∈ Finset.Ico (l.getD a 0) (l.getD b 0), f x =
        ∑ j ∈ Finset.Ico a b, ∑ x ∈ Finset.Ico (l.getD j 0) (l.getD (j + 1) 0), f x := by
  intro a b
  induction b with
  | zero =>
    intro hab _
    have ha : a = 0 := by omega
    subst ha
    simp
  | succ b ih =>
    intro hab hb
    rcases Nat.eq_or_lt_of_le hab with rfl | hab'
    · simp
    · have hab2 : a ≤ b := by omega
      rw [Finset.sum_Ico_succ_top hab2]
      rw [← ih hab2 (by omega)]
      exact (sum_Ico_int_consecutive f (sorted_getD_le_getD hs hab2 (by omega))
        (sorted_getD_le_getD hs (by omega) hb)).symm

theorem getD_indexOf {l : List Int} {v : Int} (h : v ∈ l) :
    l.getD (List.indexOf v l) 0 = v := by
  rw [List.getD_eq_getElem _ _ (List.indexOf_lt_length.mpr h)]
  exact List.getElem_indexOf _

theorem indexOf_lt_indexOf {l : List Int} (hs : List.Sorted (· < ·) l) {u v : Int}
    (hu : u ∈ l) (hv : v ∈ l) (huv : u < v) :
    List.indexOf u l < List.indexOf v l := by
  by_contra h
  push_neg at h
  have h1 : l.getD (List.indexOf v l) 0 ≤ l.getD (List.indexOf u l) 0 :=
    sorted_getD_le_getD hs h (List.indexOf_lt_length.mpr hu)
  rw [getD_indexOf hu, getD_indexOf hv] at h1
  omega

end Day9

namespace Day9

/-- The weight of a compressed cell is exactly the number of allowed tiles
(per the brute-force classifier) inside that cell. -/
theorem cell_weight_eq_tile_sum {coords : List (Int × Int)} {ve he : List (Int × Int × Int)}
    {min_x max_x min_y max_y : Int}
    (hbb : get_bounding_box coords = Except.ok (min_x, max_x, min_y, max_y))
    (hedges : build_edges coords = Except.ok (ve, he)) {i j : Nat}
    (hj : j + 1 < (compress_axis (coords.map Prod.fst) min_x max_x).length)
    (hi : i + 1 < (compress_axis (coords.map Prod.snd) min_y max_y).length) :
    cell_weight_at (compress_axis (coords.map Prod.fst) min_x max_x) ve
        (vertical_intervals_by_x ve) (horizontal_intervals_by_y he)
        ((compress_axis (coords.map Prod.snd) min_y max_y).getD i 0)
        ((compress_axis (coords.map Prod.snd) min_y max_y).getD (i + 1) 0 -
          (compress_axis (coords.map Prod.snd) min_y max_y).getD i 0) j =
      ∑ x ∈ Finset.Ico ((compress_axis (coords.map Prod.fst) min_x max_x).getD j 0)
          ((compress_axis (coords.map Prod.fst) min_x max_x).getD (j + 1) 0),
        ∑ y ∈ Finset.Ico ((compress_axis (coords.map Prod.snd) min_y max_y).getD i 0)
            ((compress_axis (coords.map Prod.snd) min_y max_y).getD (i + 1) 0),
          (if brute_allowed ve he x y then (1 : Int) else 0) := by
  have hvalv : ∀ e ∈ ve, e.2.1 ≤ e.2.2 := fun e he' => (build_edges_v_facts hedges e he').1
  have hvalh : ∀ e ∈ he, e.2.1 ≤ e.2.2 := fun e he' => (build_edges_h_facts hedges e he').1
  have hsX := compress_axis_sorted (coords.map Prod.fst) min_x max_x
  have hsY := compress_axis_sorted (coords.map Prod.snd) min_y max_y
  have hvex : ∀ e ∈ ve, e.1 ∈ compress_axis (coords.map Prod.fst) min_x max_x ∧
      e.1 + 1 ∈ compress_axis (coords.map Prod.fst) min_x max_x :=
    fun e he' => (edges_compressed_v hbb hedges e he').1
  have hvey : ∀ e ∈ ve, e.2.1 ∈ compress_axis (coords.map Prod.snd) min_y max_y ∧
      e.2.2 ∈ compress_axis (coords.map Prod.snd) min_y max_y ∧
      e.2.2 + 1 ∈ compress_axis (coords.map Prod.snd) min_y max_y :=
    fun e he' => (edges_compressed_v hbb hedges e he').2
  have hhex : ∀ e ∈ he, e.2.1 ∈ compress_axis (coords.map Prod.fst) min_x max_x ∧
      e.2.2 + 1 ∈ compress_axis (coords.map Prod.fst) min_x max_x :=
    fun e he' => (edges_compressed_h hbb hedges e he').2
  have hhey : ∀ e ∈ he, e.1 ∈ compress_axis (coords.map Prod.snd) min_y max_y ∧
      e.1 + 1 ∈ compress_axis (coords.map Prod.snd) min_y max_y :=
    fun e he' => (edges_compressed_h hbb hedges e he').1
  have hpoint : ∀ x ∈ Finset.Ico ((compress_axis (coords.map Prod.fst) min_x max_x).getD j 0)
      ((compress_axis (coords.map Prod.fst) min_x max_x).getD (j + 1) 0),
      ∀ y ∈ Finset.Ico ((compress_axis (coords.map Prod.snd) min_y max_y).getD i 0)
        ((compress_axis (coords.map Prod.snd) min_y max_y).getD (i + 1) 0),
      brute_allowed ve he x y =
        brute_allowed ve he ((compress_axis (coords.map Prod.fst) min_x max_x).getD j 0)
          ((compress_axis (coords.map Prod.snd) min_y max_y).getD i 0) := by
    intro x hx y hy
    rcases Finset.mem_Ico.mp hx with ⟨hxa, hxb⟩
    rcases Finset.mem_Ico.mp hy with ⟨hya, hyb⟩
    rw [brute_allowed_const_x hsX hvex hhex hj hxa hxb y]
    rw [brute_allowed_const_y hsY hvey hhey hi hya hyb]
  have hbridge := inside_or_boundary_eq_brute hvalv hvalh
    ((compress_axis (coords.map Prod.fst) min_x max_x).getD j 0)
    ((compress_axis (coords.map Prod.snd) min_y max_y).getD i 0)
  have hwx : (compress_axis (coords.map Prod.fst) min_x max_x).getD j 0 ≤
      (compress_axis (coords.map Prod.fst) min_x max_x).getD (j + 1) 0 :=
    sorted_getD_le_getD hsX (by omega) hj
  have hwy : (compress_axis (coords.map Prod.snd) min_y max_y).getD i 0 ≤
      (compress_axis (coords.map Prod.snd) min_y max_y).getD (i + 1) 0 :=
    sorted_getD_le_getD hsY (by omega) hi
  rw [cell_weight_at]
  cases hrep : brute_allowed ve he
      ((compress_axis (coords.map Prod.fst) min_x max_x).getD j 0)
      ((compress_axis (coords.map Prod.snd) min_y max_y).getD i 0) with
  | false =>
    rw [hrep] at hbridge
    rw [if_neg (by rw [hbridge]; exact Bool.false_ne_true)]
    symm
    refine Finset.sum_eq_zero ?_
    intro x hx
    refine Finset.sum_eq_zero ?_
    intro y hy
    rw [hpoint x hx y hy, hrep, if_neg Bool.false_ne_true]
  | true =>
    rw [hrep] at hbridge
    rw [if_pos (by rw [hbridge])]
    have hsum : ∑ x ∈ Finset.Ico ((compress_axis (coords.map Prod.fst) min_x max_x).getD j 0)
        ((compress_axis (coords.map Prod.fst) min_x max_x).getD (j + 1) 0),
        ∑ y ∈ Finset.Ico ((compress_axis (coords.map Prod.snd) min_y max_y).getD i 0)
          ((compress_axis (coords.map Prod.snd) min_y max_y).getD (i + 1) 0),
          (if brute_allowed ve he x y then (1 : Int) else 0) =
        ∑ _x ∈ Finset.Ico ((compress_axis (coords.map Prod.fst) min_x max_x).getD j 0)
          ((compress_axis (coords.map Prod.fst) min_x max_x).getD (j + 1) 0),
        ∑ _y ∈ Finset.Ico ((compress_axis (coords.map Prod.snd) min_y max_y).getD i 0)
          ((compress_axis (coords.map Prod.snd) min_y max_y).getD (i + 1) 0), (1 : Int) := by
      refine Finset.sum_congr rfl ?_
      intro x hx
      refine Finset.sum_congr rfl ?_
      intro y hy
      rw [hpoint x hx y hy, hrep, if_pos rfl]
    rw [hsum]
    simp only [Finset.sum_const, Int.card_Ico, nsmul_eq_mul, mul_one]
    rw [Int.toNat_of_nonneg (by omega), Int.toNat_of_nonneg (by omega)]

end Day9

namespace Day9

/-- Engine correctness: for any rectangle spanned by two input vertices, the
prefix-sum query counts exactly the brute-force allowed tiles. -/
theorem count_eq_brute {coords : List (Int × Int)} {ve he : List (Int × Int × Int)}
    {min_x max_x min_y max_y : Int}
    (hbb : get_bounding_box coords = Except.ok (min_x, max_x, min_y, max_y))
    (hedges : build_edges coords = Except.ok (ve, he))
    {x1 y1 x2 y2 : Int} (h1 : (x1, y1) ∈ coords) (h2 : (x2, y2) ∈ coords) :
    count_allowed_tiles_in_rectangle
        (build_prefix_sum_from_scanlines (compress_axis (coords.map Prod.fst) min_x max_x)
          (compress_axis (coords.map Prod.snd) min_y max_y) ve (vertical_intervals_by_x ve)
          (horizontal_intervals_by_y he))
        (compress_axis (coords.map Prod.fst) min_x max_x)
        (compress_axis (coords.map Prod.snd) min_y max_y)
        (min x1 x2) (min y1 y2) (max x1 x2) (max y1 y2) =
      brute_count ve he (min x1 x2) (min y1 y2) (max x1 x2) (max y1 y2) := by
  have hb1 := bounding_box_bounds hbb (x1, y1) h1
  have hb2 := bounding_box_bounds hbb (x2, y2) h2
  have hminx : min x1 x2 ∈ coords.map Prod.fst := by
    rcases min_cases x1 x2 with ⟨hm, -⟩ | ⟨hm, -⟩ <;> rw [hm]
    · exact List.mem_map.mpr ⟨(x1, y1), h1, rfl⟩
    · exact List.mem_map.mpr ⟨(x2, y2), h2, rfl⟩
  have hmaxx : max x1 x2 ∈ coords.map Prod.fst := by
    rcases max_cases x1 x2 with ⟨hm, -⟩ | ⟨hm, -⟩ <;> rw [hm]
    · exact List.mem_map.mpr ⟨(x1, y1), h1, rfl⟩
    · exact List.mem_map.mpr ⟨(x2, y2), h2, rfl⟩
  have hminy : min y1 y2 ∈ coords.map Prod.snd := by
    rcases min_cases y1 y2 with ⟨hm, -⟩ | ⟨hm, -⟩ <;> rw [hm]
    · exact List.mem_map.mpr ⟨(x1, y1), h1, rfl⟩
    · exact List.mem_map.mpr ⟨(x2, y2), h2, rfl⟩
  have hmaxy : max y1 y2 ∈ coords.map Prod.snd := by
    rcases max_cases y1 y2 with ⟨hm, -⟩ | ⟨hm, -⟩ <;> rw [hm]
    · exact List.mem_map.mpr ⟨(x1, y1), h1, rfl⟩
    · exact List.mem_map.mpr ⟨(x2, y2), h2, rfl⟩
  have hsX := compress_axis_sorted (coords.map Prod.fst) min_x max_x
  have hsY := compress_axis_sorted (coords.map Prod.snd) min_y max_y
  have m1 := (compress_axis_mem_of_val hminx (le_min hb1.1 hb2.1)
    (le_trans (min_le_left _ _) hb1.2.1)).1
  have m2 := (compress_axis_mem_of_val hmaxx (le_trans hb1.1 (le_max_left _ _))
    (max_le hb1.2.1 hb2.2.1)).2
  have m3 := (compress_axis_mem_of_val hminy (le_min hb1.2.2.1 hb2.2.2.1)
    (le_trans (min_le_left _ _) hb1.2.2.2)).1
  have m4 := (compress_axis_mem_of_val hmaxy (le_trans hb1.2.2.1 (le_max_left _ _))
    (max_le hb1.2.2.2 hb2.2.2.2)).2
  have hleftlen := List.indexOf_lt_length.mpr m1
  have hrightlen := List.indexOf_lt_length.mpr m2
  have hbotlen := List.indexOf_lt_length.mpr m3
  have htoplen := List.indexOf_lt_length.mpr m4
  have hlr : List.indexOf (min x1 x2) (compress_axis (coords.map Prod.fst) min_x max_x) <
      List.indexOf (max x1 x2 + 1) (compress_axis (coords.map Prod.fst) min_x max_x) := by
    refine indexOf_lt_indexOf hsX m1 m2 ?_
    have := min_le_max (a := x1) (b := x2)
    omega
  have hbt : List.indexOf (min y1 y2) (compress_axis (coords.map Prod.snd) min_y max_y) <
      List.indexOf (max y1 y2 + 1) (compress_axis (coords.map Prod.snd) min_y max_y) := by
    refine indexOf_lt_indexOf hsY m3 m4 ?_
    have := min_le_max (a := y1) (b := y2)
    omega
  have hgl := getD_indexOf m1
  have hgr := getD_indexOf m2
  have hgb := getD_indexOf m3
  have hgt := getD_indexOf m4
  simp only [count_allowed_tiles_in_rectangle]
  rw [prefix_rect_sum (compress_axis (coords.map Prod.fst) min_x max_x)
    (compress_axis (coords.map Prod.snd) min_y max_y) ve (vertical_intervals_by_x ve)
    (horizontal_intervals_by_y he) (le_of_lt hbt) (by omega) (le_of_lt hlr) (by omega)]
  have hcw : ∀ i ∈ Finset.Ico
      (List.indexOf (min y1 y2) (compress_axis (coords.map Prod.snd) min_y max_y))
      (List.indexOf (max y1 y2 + 1) (compress_axis (coords.map Prod.snd) min_y max_y)),
      ∀ j ∈ Finset.Ico
        (List.indexOf (min x1 x2) (compress_axis (coords.map Prod.fst) min_x max_x))
        (List.indexOf (max x1 x2 + 1) (compress_axis (coords.map Prod.fst) min_x max_x)),
      cell_weight_at (compress_axis (coords.map Prod.fst) min_x max_x) ve
          (vertical_intervals_by_x ve) (horizontal_intervals_by_y he)
          ((compress_axis (coords.map Prod.snd) min_y max_y).getD i 0)
          ((compress_axis (coords.map Prod.snd) min_y max_y).getD (i + 1) 0 -
            (compress_axis (coords.map Prod.snd) min_y max_y).getD i 0) j =
        ∑ x ∈ Finset.Ico ((compress_axis (coords.map Prod.fst) min_x max_x).getD j 0)
            ((compress_axis (coords.map Prod.fst) min_x max_x).getD (j + 1) 0),
          ∑ y ∈ Finset.Ico ((compress_axis (coords.map Prod.snd) min_y max_y).getD i 0)
              ((compress_axis (coords.map Prod.snd) min_y max_y).getD (i + 1) 0),
            (if brute_allowed ve he x y then (1 : Int) else 0) := by
    intro i hi j hj
    rcases Finset.mem_Ico.mp hi with ⟨-, hi2⟩
    rcases Finset.mem_Ico.mp hj with ⟨-, hj2⟩
    exact cell_weight_eq_tile_sum hbb hedges (by omega) (by omega)
  rw [Finset.sum_congr rfl fun i hi => Finset.sum_congr rfl fun j hj => hcw i hi j hj]
  rw [Finset.sum_comm]
  have hinner : ∀ j ∈ Finset.Ico
      (List.indexOf (min x1 x2) (compress_axis (coords.map Prod.fst) min_x max_x))
      (List.indexOf (max x1 x2 + 1) (compress_axis (coords.map Prod.fst) min_x max_x)),
      (∑ i ∈ Finset.Ico
        (List.indexOf (min y1 y2) (compress_axis (coords.map Prod.snd) min_y max_y))
        (List.indexOf (max y1 y2 + 1) (compress_axis (coords.map Prod.snd) min_y max_y)),
        ∑ x ∈ Finset.Ico ((compress_axis (coords.map Prod.fst) min_x max_x).getD j 0)
            ((compress_axis (coords.map Prod.fst) min_x max_x).getD (j + 1) 0),
          ∑ y ∈ Finset.Ico ((compress_axis (coords.map Prod.snd) min_y max_y).getD i 0)
              ((compress_axis (coords.map Prod.snd) min_y max_y).getD (i + 1) 0),
            (if brute_allowed ve he x y then (1 : Int) else 0)) =
      ∑ x ∈ Finset.Ico ((compress_axis (coords.map Prod.fst) min_x max_x).getD j 0)
          ((compress_axis (coords.map Prod.fst) min_x max_x).getD (j + 1) 0),
        ∑ y ∈ Finset.Icc (min y1 y2) (max y1 y2),
          (if brute_allowed ve he x y then (1 : Int) else 0) := by
    intro j _
    rw [Finset.sum_comm]
    refine Finset.sum_congr rfl ?_
    intro x _
    rw [← sum_Ico_getD_split (compress_axis (coords.map Prod.snd) min_y max_y) hsY
      (fun y => if brute_allowed ve he x y then (1 : Int) else 0) (le_of_lt hbt) htoplen]
    rw [hgb, hgt, int_Ico_succ_right]
  rw [Finset.sum_congr rfl hinner]
  rw [← sum_Ico_getD_split (compress_axis (coords.map Prod.fst) min_x max_x) hsX
    (fun x => ∑ y ∈ Finset.Icc (min y1 y2) (max y1 y2),
      if brute_allowed ve he x y then (1 : Int) else 0) (le_of_lt hlr) hrightlen]
  rw [hgl, hgr, int_Ico_succ_right]
  rw [brute_count]

end Day9

namespace Day9

/-- Successful pipeline inversion: with the bounding box and edges known, the
built structure is the canonical prefix grid over the compressed axes. -/
theorem build_allowed_eq {coords : List (Int × Int)} {ve he : List (Int × Int × Int)}
    {min_x max_x min_y max_y : Int}
    (hbb : get_bounding_box coords = Except.ok (min_x, max_x, min_y, max_y))
    (hedges : build_edges coords = Except.ok (ve, he)) :
    build_allowed_tiles_prefix_sum coords =
      Except.ok
        (build_prefix_sum_from_scanlines (compress_axis (coords.map Prod.fst) min_x max_x)
            (compress_axis (coords.map Prod.snd) min_y max_y) ve (vertical_intervals_by_x ve)
            (horizontal_intervals_by_y he),
          compress_axis (coords.map Prod.fst) min_x max_x,
          compress_axis (coords.map Prod.snd) min_y max_y) := by
  rw [build_allowed_tiles_prefix_sum, hbb, hedges]
  rfl

/-- C2: on a valid closed orthogonal polygon whose bounding box fits within
40×40 tiles, the rectangle query agrees with the brute-force per-tile scan
(boundary, or odd crossing count over half-open vertical spans strictly left
of the tile) on the rectangle spanned by any pair of input vertices. -/
theorem claim_C2 (coords : List (Int × Int)) (ve he : List (Int × Int × Int))
    (hedges : build_edges coords = Except.ok (ve, he))
    (min_x max_x min_y max_y : Int)
    (hbb : get_bounding_box coords = Except.ok (min_x, max_x, min_y, max_y))
    (hsmall_x : max_x - min_x + 1 ≤ 40) (hsmall_y : max_y - min_y + 1 ≤ 40)
    (g : List (List Int)) (xs ys : List Int)
    (hbuild : build_allowed_tiles_prefix_sum coords = Except.ok (g, xs, ys))
    (x1 y1 x2 y2 : Int) (h1 : (x1, y1) ∈ coords) (h2 : (x2, y2) ∈ coords) :
    count_allowed_tiles_in_rectangle g xs ys
        (min x1 x2) (min y1 y2) (max x1 x2) (max y1 y2) =
      brute_count ve he (min x1 x2) (min y1 y2) (max x1 x2) (max y1 y2) := by
  rw [build_allowed_eq hbb hedges] at hbuild
  simp only [Except.ok.injEq, Prod.mk.injEq] at hbuild
  obtain ⟨hg, hxs, hys⟩ := hbuild
  subst hg hxs hys
  exact count_eq_brute hbb hedges h1 h2

/-- Witness for C2: the square `(0,0)-(3,0)-(3,2)-(0,2)` and the vertex pair
`(3,0)`, `(0,2)`. -/
theorem claim_C2_witness :
    build_edges [((0 : Int), (0 : Int)), (3, 0), (3, 2), (0, 2)] =
        Except.ok ([(3, 0, 2), (0, 0, 2)], [(0, 0, 3), (2, 0, 3)]) ∧
    get_bounding_box [((0 : Int), (0 : Int)), (3, 0), (3, 2), (0, 2)] =
        Except.ok (0, 3, 0, 2) ∧
    ((3 : Int) - 0 + 1 ≤ 40 ∧ (2 : Int) - 0 + 1 ≤ 40) ∧
    build_allowed_tiles_prefix_sum [((0 : Int), (0 : Int)), (3, 0), (3, 2), (0, 2)] =
        Except.ok ([[0, 0, 0, 0, 0], [0, 1, 2, 3, 4], [0, 2, 4, 6, 8], [0, 3, 6, 9, 12]],
          [0, 1, 2, 3, 4], [0, 1, 2, 3]) ∧
    ((3, 0) ∈ [((0 : Int), (0 : Int)), (3, 0), (3, 2), (0, 2)] ∧
      (0, 2) ∈ [((0 : Int), (0 : Int)), (3, 0), (3, 2), (0, 2)]) ∧
    count_allowed_tiles_in_rectangle
        [[0, 0, 0, 0, 0], [0, 1, 2, 3, 4], [0, 2, 4, 6, 8], [0, 3, 6, 9, 12]]
        [0, 1, 2, 3, 4] [0, 1, 2, 3] (min 3 0) (min 0 2) (max 3 0) (max 0 2) =
      brute_count [((3 : Int), (0 : Int), (2 : Int)), (0, 0, 2)]
        [((0 : Int), (0 : Int), (3 : Int)), (2, 0, 3)]
        (min 3 0) (min 0 2) (max 3 0) (max 0 2) :=
  ⟨rfl, rfl, ⟨by decide, by decide⟩, rfl, ⟨by decide, by decide⟩,
    claim_C2 [((0 : Int), (0 : Int)), (3, 0), (3, 2), (0, 2)]
      [((3 : Int), (0 : Int), (2 : Int)), (0, 0, 2)]
      [((0 : Int), (0 : Int), (3 : Int)), (2, 0, 3)] rfl 0 3 0 2 rfl (by decide) (by decide)
      [[0, 0, 0, 0, 0], [0, 1, 2, 3, 4], [0, 2, 4, 6, 8], [0, 3, 6, 9, 12]]
      [0, 1, 2, 3, 4] [0, 1, 2, 3] rfl 3 0 0 2 (by decide) (by decide)⟩

end Day9

namespace Day9

theorem brute_count_nonneg (ve he : List (Int × Int × Int)) (a b c d : Int) :
    0 ≤ brute_count ve he a b c d := by
  refine Finset.sum_nonneg ?_
  intro x _
  refine Finset.sum_nonneg ?_
  intro y _
  split <;> omega

theorem brute_count_le_area (ve he : List (Int × Int × Int)) {a b c d : Int}
    (hac : a ≤ c) (hbd : b ≤ d) :
    brute_count ve he a b c d ≤ (c - a + 1) * (d - b + 1) := by
  rw [brute_count]
  calc ∑ x ∈ Finset.Icc a c, ∑ y ∈ Finset.Icc b d,
        (if brute_allowed ve he x y then (1 : Int) else 0) ≤
      ∑ _x ∈ Finset.Icc a c, ∑ _y ∈ Finset.Icc b d, (1 : Int) := by
        refine Finset.sum_le_sum ?_
        intro x _
        refine Finset.sum_le_sum ?_
        intro y _
        split <;> omega
    _ = (c - a + 1) * (d - b + 1) := by
        simp only [Finset.sum_const, Int.card_Icc, nsmul_eq_mul, mul_one]
        rw [Int.toNat_of_nonneg (by omega), Int.toNat_of_nonneg (by omega)]
        ring

theorem if_one_iff {b : Bool} : ((if b then (1 : Int) else 0) = 1 ↔ b = true) := by
  cases b <;> simp

theorem brute_count_eq_area_iff (ve he : List (Int × Int × Int)) {a b c d : Int}
    (hac : a ≤ c) (hbd : b ≤ d) :
    (brute_count ve he a b c d = (c - a + 1) * (d - b + 1) ↔
      ∀ x ∈ Finset.Icc a c, ∀ y ∈ Finset.Icc b d, brute_allowed ve he x y = true) := by
  have harea : (c - a + 1) * (d - b + 1) =
      ∑ _x ∈ Finset.Icc a c, ∑ _y ∈ Finset.Icc b d, (1 : Int) := by
    simp only [Finset.sum_const, Int.card_Icc, nsmul_eq_mul, mul_one]
    rw [Int.toNat_of_nonneg (by omega), Int.toNat_of_nonneg (by omega)]
    ring
  rw [brute_count, harea]
  rw [Finset.sum_eq_sum_iff_of_le (fun x _ => Finset.sum_le_sum
    (fun y _ => by split <;> omega))]
  refine forall₂_congr ?_
  intro x _
  rw [Finset.sum_eq_sum_iff_of_le (fun y _ => by split <;> omega)]
  refine forall₂_congr ?_
  intro y _
  exact if_one_iff

/-- C10: the rectangle query on a vertex-pair rectangle is between 0 and the
rectangle's full tile area, and reaches the area only when every tile in the
rectangle is allowed. -/
theorem claim_C10 (coords : List (Int × Int)) (ve he : List (Int × Int × Int))
    (hedges : build_edges coords = Except.ok (ve, he))
    (min_x max_x min_y max_y : Int)
    (hbb : get_bounding_box coords = Except.ok (min_x, max_x, min_y, max_y))
    (g : List (List Int)) (xs ys : List Int)
    (hbuild : build_allowed_tiles_prefix_sum coords = Except.ok (g, xs, ys))
    (x1 y1 x2 y2 : Int) (h1 : (x1, y1) ∈ coords) (h2 : (x2, y2) ∈ coords) :
    0 ≤ count_allowed_tiles_in_rectangle g xs ys
        (min x1 x2) (min y1 y2) (max x1 x2) (max y1 y2) ∧
    count_allowed_tiles_in_rectangle g xs ys
        (min x1 x2) (min y1 y2) (max x1 x2) (max y1 y2) ≤
      (max x1 x2 - min x1 x2 + 1) * (max y1 y2 - min y1 y2 + 1) ∧
    (count_allowed_tiles_in_rectangle g xs ys
        (min x1 x2) (min y1 y2) (max x1 x2) (max y1 y2) =
        (max x1 x2 - min x1 x2 + 1) * (max y1 y2 - min y1 y2 + 1) →
      ∀ x ∈ Finset.Icc (min x1 x2) (max x1 x2), ∀ y ∈ Finset.Icc (min y1 y2) (max y1 y2),
        brute_allowed ve he x y = true) := by
  rw [build_allowed_eq hbb hedges] at hbuild
  simp only [Except.ok.injEq, Prod.mk.injEq] at hbuild
  obtain ⟨hg, hxs, hys⟩ := hbuild
  subst hg hxs hys
  rw [count_eq_brute hbb hedges h1 h2]
  exact ⟨brute_count_nonneg ve he _ _ _ _,
    brute_count_le_area ve he min_le_max min_le_max,
    fun h => (brute_count_eq_area_iff ve he min_le_max min_le_max).mp h⟩

/-- Witness for C10: the square `(0,0)-(3,0)-(3,2)-(0,2)` with the pair
`(3,0)`, `(0,2)`. -/
theorem claim_C10_witness :
    build_edges [((0 : Int), (0 : Int)), (3, 0), (3, 2), (0, 2)] =
        Except.ok ([(3, 0, 2), (0, 0, 2)], [(0, 0, 3), (2, 0, 3)]) ∧
    get_bounding_box [((0 : Int), (0 : Int)), (3, 0), (3, 2), (0, 2)] =
        Except.ok (0, 3, 0, 2) ∧
    build_allowed_tiles_prefix_sum [((0 : Int), (0 : Int)), (3, 0), (3, 2), (0, 2)] =
        Except.ok ([[0, 0, 0, 0, 0], [0, 1, 2, 3, 4], [0, 2, 4, 6, 8], [0, 3, 6, 9, 12]],
          [0, 1, 2, 3, 4], [0, 1, 2, 3]) ∧
    (0 ≤ count_allowed_tiles_in_rectangle
        [[0, 0, 0, 0, 0], [0, 1, 2, 3, 4], [0, 2, 4, 6, 8], [0, 3, 6, 9, 12]]
        [0, 1, 2, 3, 4] [0, 1, 2, 3] (min 3 0) (min 0 2) (max 3 0) (max 0 2) ∧
      count_allowed_tiles_in_rectangle
        [[0, 0, 0, 0, 0], [0, 1, 2, 3, 4], [0, 2, 4, 6, 8], [0, 3, 6, 9, 12]]
        [0, 1, 2, 3, 4] [0, 1, 2, 3] (min 3 0) (min 0 2) (max 3 0) (max 0 2) ≤
        (max 3 0 - min 3 0 + 1) * (max 0 2 - min 0 2 + 1) ∧
      (count_allowed_tiles_in_rectangle
          [[0, 0, 0, 0, 0], [0, 1, 2, 3, 4], [0, 2, 4, 6, 8], [0, 3, 6, 9, 12]]
          [0, 1, 2, 3, 4] [0, 1, 2, 3] (min 3 0) (min 0 2) (max 3 0) (max 0 2) =
          (max 3 0 - min 3 0 + 1) * (max 0 2 - min 0 2 + 1) →
        ∀ x ∈ Finset.Icc (min 3 0) (max 3 0), ∀ y ∈ Finset.Icc (min 0 2) (max 0 2),
          brute_allowed [((3 : Int), (0 : Int), (2 : Int)), (0, 0, 2)]
            [((0 : Int), (0 : Int), (3 : Int)), (2, 0, 3)] x y = true)) :=
  ⟨rfl, rfl, rfl,
    claim_C10 [((0 : Int), (0 : Int)), (3, 0), (3, 2), (0, 2)]
      [((3 : Int), (0 : Int), (2 : Int)), (0, 0, 2)]
      [((0 : Int), (0 : Int), (3 : Int)), (2, 0, 3)] rfl 0 3 0 2 rfl
      [[0, 0, 0, 0, 0], [0, 1, 2, 3, 4], [0, 2, 4, 6, 8], [0, 3, 6, 9, 12]]
      [0, 1, 2, 3, 4] [0, 1, 2, 3] rfl 3 0 0 2 (by decide) (by decide)⟩

end Day9

namespace Day9

theorem candidate_pairs_mem :
    ∀ {coords : List (Int × Int)} {p : (Int × Int) × (Int × Int)},
      p ∈ candidate_pairs coords → p.1 ∈ coords ∧ p.2 ∈ coords := by
  intro coords
  induction coords with
  | nil => intro p hp; exact absurd hp (List.not_mem_nil p)
  | cons c rest ih =>
    intro p hp
    rw [candidate_pairs] at hp
    rcases List.mem_append.mp hp with hl | hr
    · obtain ⟨d, hd, rfl⟩ := List.mem_map.mp hl
      exact ⟨List.mem_cons_self _ _, List.mem_cons_of_mem _ hd⟩
    · obtain ⟨hp1, hp2⟩ := ih hr
      exact ⟨List.mem_cons_of_mem _ hp1, List.mem_cons_of_mem _ hp2⟩

theorem foldl_congr_mem {α β : Type} :
    ∀ (l : List β) (f g : α → β → α) (init : α),
      (∀ b p, p ∈ l → f b p = g b p) → l.foldl f init = l.foldl g init := by
  intro l
  induction l with
  | nil => intro f g init _; rfl
  | cons a l ih =>
    intro f g init h
    rw [List.foldl_cons, List.foldl_cons, h init a (List.mem_cons_self _ _)]
    exact ih f g _ fun b p hp => h b p (List.mem_cons_of_mem _ hp)

/-- The candidate-loop body of `solve_part2` agrees with the specification
step (accept a pair exactly when its whole rectangle is allowed). -/
theorem part2_step_eq_spec {coords : List (Int × Int)} {ve he : List (Int × Int × Int)}
    {min_x max_x min_y max_y : Int}
    (hbb : get_bounding_box coords = Except.ok (min_x, max_x, min_y, max_y))
    (hedges : build_edges coords = Except.ok (ve, he))
    {p : (Int × Int) × (Int × Int)} (hp1 : p.1 ∈ coords) (hp2 : p.2 ∈ coords)
    (best : Int) :
    part2_step
        (count_allowed_tiles_in_rectangle
          (build_prefix_sum_from_scanlines (compress_axis (coords.map Prod.fst) min_x max_x)
            (compress_axis (coords.map Prod.snd) min_y max_y) ve (vertical_intervals_by_x ve)
            (horizontal_intervals_by_y he))
          (compress_axis (coords.map Prod.fst) min_x max_x)
          (compress_axis (coords.map Prod.snd) min_y max_y)) best p =
      (if rect_fully_allowed ve he p.1 p.2 then max best (rect_area p.1 p.2) else best) := by
  obtain ⟨⟨x1, y1⟩, ⟨x2, y2⟩⟩ := p
  simp only [part2_step]
  have e1 : (if x1 ≤ x2 then x1 else x2) = min x1 x2 := (min_def x1 x2).symm
  have e2 : (if x1 ≤ x2 then x2 else x1) = max x1 x2 := (max_def x1 x2).symm
  have e3 : (if y1 ≤ y2 then y1 else y2) = min y1 y2 := (min_def y1 y2).symm
  have e4 : (if y1 ≤ y2 then y2 else y1) = max y1 y2 := (max_def y1 y2).symm
  rw [e1, e2, e3, e4]
  rw [count_eq_brute hbb hedges hp1 hp2]
  have harea : rect_area (x1, y1) (x2, y2) =
      (max x1 x2 - min x1 x2 + 1) * (max y1 y2 - min y1 y2 + 1) := by
    rw [rect_area]
    show (|x1 - x2| + 1) * (|y1 - y2| + 1) = _
    have hx : |x1 - x2| = max x1 x2 - min x1 x2 := by
      rcases le_total x1 x2 with h | h
      · rw [abs_of_nonpos (by omega), max_eq_right h, min_eq_left h]
        ring
      · rw [abs_of_nonneg (by omega), max_eq_left h, min_eq_right h]
    have hy : |y1 - y2| = max y1 y2 - min y1 y2 := by
      rcases le_total y1 y2 with h | h
      · rw [abs_of_nonpos (by omega), max_eq_right h, min_eq_left h]
        ring
      · rw [abs_of_nonneg (by omega), max_eq_left h, min_eq_right h]
    rw [hx, hy]
  have hfully : (rect_fully_allowed ve he (x1, y1) (x2, y2) = true) ↔
      (∀ x ∈ Finset.Icc (min x1 x2) (max x1 x2), ∀ y ∈ Finset.Icc (min y1 y2) (max y1 y2),
        brute_allowed ve he x y = true) := by
    rw [rect_fully_allowed, decide_eq_true_eq]
  have hiff := brute_count_eq_area_iff ve he
    (min_le_max (a := x1) (b := x2)) (min_le_max (a := y1) (b := y2))
  by_cases hful : rect_fully_allowed ve he (x1, y1) (x2, y2) = true
  · have heq : brute_count ve he (min x1 x2) (min y1 y2) (max x1 x2) (max y1 y2) =
        (max x1 x2 - min x1 x2 + 1) * (max y1 y2 - min y1 y2 + 1) :=
      hiff.mpr (hfully.mp hful)
    rw [if_pos hful, harea]
    by_cases hba : (max x1 x2 - min x1 x2 + 1) * (max y1 y2 - min y1 y2 + 1) ≤ best
    · rw [if_pos hba]
      omega
    · rw [if_neg hba, if_pos heq]
      omega
  · have hneq : brute_count ve he (min x1 x2) (min y1 y2) (max x1 x2) (max y1 y2) ≠
        (max x1 x2 - min x1 x2 + 1) * (max y1 y2 - min y1 y2 + 1) :=
      fun h => hful (hfully.mpr (hiff.mp h))
    rw [if_neg hful]
    by_cases hba : (max x1 x2 - min x1 x2 + 1) * (max y1 y2 - min y1 y2 + 1) ≤ best
    · rw [if_pos hba]
    · rw [if_neg hba, if_neg hneq]

/-- C1: on a valid closed orthogonal polygon with at least two vertices,
`solve_part2` returns the maximum inclusive rectangle area over all unordered
pairs of input vertices whose spanned rectangle consists entirely of allowed
tiles (boundary or strictly inside by the even/odd rule), and 0 when no such
pair exists. -/
theorem claim_C1 (coords : List (Int × Int)) (hlen : 2 ≤ coords.length)
    (ve he : List (Int × Int × Int))
    (hedges : build_edges coords = Except.ok (ve, he)) :
    solve_part2 coords = Except.ok (max_covered_area ve he (candidate_pairs coords)) := by
  cases coords with
  | nil => simp at hlen
  | cons c cs =>
    have hbb : get_bounding_box (c :: cs) =
        Except.ok ((cs.map Prod.fst).foldl min c.1, (cs.map Prod.fst).foldl max c.1,
          (cs.map Prod.snd).foldl min c.2, (cs.map Prod.snd).foldl max c.2) := rfl
    unfold solve_part2
    rw [build_allowed_eq hbb hedges]
    dsimp only
    rw [max_covered_area]
    congr 1
    refine foldl_congr_mem _ _ _ 0 ?_
    intro best p hp
    obtain ⟨hp1, hp2⟩ := candidate_pairs_mem hp
    exact part2_step_eq_spec hbb hedges hp1 hp2 best

/-- Witness for C1 at the square `(0,0)-(3,0)-(3,2)-(0,2)`. -/
theorem claim_C1_witness :
    2 ≤ ([((0 : Int), (0 : Int)), (3, 0), (3, 2), (0, 2)]).length ∧
    build_edges [((0 : Int), (0 : Int)), (3, 0), (3, 2), (0, 2)] =
      Except.ok ([(3, 0, 2), (0, 0, 2)], [(0, 0, 3), (2, 0, 3)]) ∧
    solve_part2 [((0 : Int), (0 : Int)), (3, 0), (3, 2), (0, 2)] =
      Except.ok (max_covered_area [((3 : Int), (0 : Int), (2 : Int)), (0, 0, 2)]
        [((0 : Int), (0 : Int), (3 : Int)), (2, 0, 3)]
        (candidate_pairs [((0 : Int), (0 : Int)), (3, 0), (3, 2), (0, 2)])) :=
  ⟨by decide, rfl,
    claim_C1 [((0 : Int), (0 : Int)), (3, 0), (3, 2), (0, 2)] (by decide)
      [((3 : Int), (0 : Int), (2 : Int)), (0, 0, 2)]
      [((0 : Int), (0 : Int), (3 : Int)), (2, 0, 3)] rfl⟩

end Day9
